import Mathlib

/-!
Shallow embedding of the key-based reconciliation engine of `update.py`
(Update/Delete of `RequestedSeries` in a master table by composite key).

Modelling conventions:
* A spreadsheet cell is an `Option String`: `none` models a missing column
  or a NaN/null cell, `some s` a textual value (`str(x)` of the cell).
* The pandas `_to_delete` column is modelled per row as an `Option Bool`;
  "column absent" corresponds to every row holding `none`.  The code's
  conditional `if "_to_delete" in df_master.columns: filter + drop` is the
  identity exactly when every row holds `none`, which the unconditional
  `applyDeletions` below reproduces.
* Audit timestamps (wall-clock I/O) are outside the embedding and omitted
  from `AuditEntry`; the Python `repr` quoting of the missing-column list in
  the reject comment is abstracted to a plain comma-separated join.
* File system and Excel I/O (`read_any`, `load_master`, `save_master`) are
  external collaborators; `run` takes the already-read input batch
  (column set plus rows) and master table, and returns the table that
  would be saved together with the audit entries and counters.
-/

namespace SeriesUpdate

/-- Python `str.strip()` on the character list of a string: drop whitespace
from both ends. -/
def trimChars (l : List Char) : List Char :=
  ((l.dropWhile Char.isWhitespace).reverse.dropWhile Char.isWhitespace).reverse

/-- Python `str.strip()`. -/
def pyStrip (s : String) : String := ⟨trimChars s.data⟩

/-- `normalize_str` from update.py: NaN/missing becomes `""`, otherwise the
value is stripped of surrounding whitespace. -/
def normalize_str : Option String → String
  | none => ""
  | some s => pyStrip s

/-- The truthy forms accepted for the `is delete` flag (update.py `TRUTHY`). -/
def TRUTHY : List String := ["1", "true", "yes", "y", "t"]

/-- Python `str.lower()`, character by character. -/
def pyLower (s : String) : String := ⟨s.data.map Char.toLower⟩

/-- `to_bool_delete` from update.py: strip, lower-case, test membership in
`TRUTHY`. -/
def to_bool_delete (v : Option String) : Bool :=
  TRUTHY.contains (pyLower (normalize_str v))

/-- `REQUIRED_COLS` from update.py. -/
def REQUIRED_COLS : List String :=
  ["VariantID", "ManufacturerName", "Category", "Family", "RequestedSeries",
   "is delete"]

/-- `KEY_COLS` from update.py. -/
def KEY_COLS : List String :=
  ["VariantID", "ManufacturerName", "Category", "Family"]

/-- Composite key: normalized `(VariantID, ManufacturerName, Category, Family)`. -/
abbrev Key := String × String × String × String

/-- A raw master row as read from the spreadsheet: the four key cells,
`RequestedSeries`, a possible pre-existing `_to_delete` cell, and the
passthrough columns the engine never touches. -/
structure RawRow where
  variantID : Option String
  manufacturerName : Option String
  category : Option String
  family : Option String
  requestedSeries : Option String
  toDelete : Option Bool
  extra : List (String × Option String)
deriving Repr, DecidableEq

/-- A master row after the normalization pass (lines 156-165 of update.py):
key columns and `RequestedSeries` are definite strings. -/
structure MasterRow where
  variantID : String
  manufacturerName : String
  category : String
  family : String
  requestedSeries : String
  toDelete : Option Bool
  extra : List (String × Option String)
deriving Repr, DecidableEq

/-- A raw input row: the six required cells as read from the input file. -/
structure InputRow where
  variantID : Option String
  manufacturerName : Option String
  category : Option String
  family : Option String
  requestedSeries : Option String
  isDelete : Option String
deriving Repr, DecidableEq

/-- An input row after the normalization pass (lines 144-147 of update.py). -/
structure NInput where
  variantID : String
  manufacturerName : String
  category : String
  family : String
  requestedSeries : String
  isDelete : String
deriving Repr, DecidableEq

/-- Normalization of the master rows: `normalize_str` on the key columns and
`RequestedSeries` only (`_to_delete` and passthrough columns untouched). -/
def normalizeRow (r : RawRow) : MasterRow :=
  { variantID := normalize_str r.variantID
    manufacturerName := normalize_str r.manufacturerName
    category := normalize_str r.category
    family := normalize_str r.family
    requestedSeries := normalize_str r.requestedSeries
    toDelete := r.toDelete
    extra := r.extra }

/-- Normalization of an input row: `normalize_str` on every required column. -/
def normalizeInput (r : InputRow) : NInput :=
  { variantID := normalize_str r.variantID
    manufacturerName := normalize_str r.manufacturerName
    category := normalize_str r.category
    family := normalize_str r.family
    requestedSeries := normalize_str r.requestedSeries
    isDelete := normalize_str r.isDelete }

/-- The row a normalized master row is written back as
(`save_master` writes the in-memory table). -/
def MasterRow.toRaw (m : MasterRow) : RawRow :=
  { variantID := some m.variantID
    manufacturerName := some m.manufacturerName
    category := some m.category
    family := some m.family
    requestedSeries := some m.requestedSeries
    toDelete := m.toDelete
    extra := m.extra }

/-- `make_key_tuple` for a normalized master row. -/
def MasterRow.key (m : MasterRow) : Key :=
  (m.variantID, m.manufacturerName, m.category, m.family)

/-- The key tuple of a normalized input row. -/
def NInput.key (r : NInput) : Key :=
  (r.variantID, r.manufacturerName, r.category, r.family)

/-- The normalized key of a raw row (used to phrase claims about saved rows). -/
def RawRow.normKey (r : RawRow) : Key :=
  (normalize_str r.variantID, normalize_str r.manufacturerName,
   normalize_str r.category, normalize_str r.family)

/-- `row_has_all_keys` from update.py: every key field, normalized again, is
non-empty.  (The row is already normalized, so the inner `normalize_str`
re-strips an already stripped value.) -/
def row_has_all_keys (r : NInput) : Bool :=
  pyStrip r.variantID != "" && pyStrip r.manufacturerName != "" &&
  pyStrip r.category != "" && pyStrip r.family != ""

/-- The master index: for each key the ordered list of row positions holding
it (update.py lines 171-174, as the extension of the dict it builds). -/
def masterIndex (rows : List MasterRow) (k : Key) : List Nat :=
  (List.range rows.length).filter fun i =>
    match rows[i]? with
    | some m => decide (m.key = k)
    | none => false

/-- Audit actions (update.py writes them as strings). -/
inductive Action where
  | reject_file
  | skip_row
  | no_match
  | delete
  | update
  | no_change
deriving Repr, DecidableEq

/-- One audit record (timestamp omitted: wall-clock I/O). -/
structure AuditEntry where
  action : Action
  key : String
  old_value : String
  new_value : String
  comment : String
deriving Repr, DecidableEq

/-- `"|".join(key)`. -/
def keyString (k : Key) : String :=
  k.1 ++ "|" ++ k.2.1 ++ "|" ++ k.2.2.1 ++ "|" ++ k.2.2.2

/-- Write `f` over the rows at the listed positions
(the effect of `df_master.loc[idxs, col] = value`); `i` is the position of
the first row of the suffix being traversed. -/
def updAt (idxs : List Nat) (f : MasterRow → MasterRow) :
    Nat → List MasterRow → List MasterRow
  | _, [] => []
  | i, r :: rs => (if i ∈ idxs then f r else r) :: updAt idxs f (i + 1) rs

/-- `df_master.loc[idxs, "RequestedSeries"].astype(str).tolist()`. -/
def oldValues (rows : List MasterRow) (idxs : List Nat) : List String :=
  idxs.filterMap fun i => (rows[i]?).map (·.requestedSeries)

/-- `len(set(old_values)) == 1 and old_values[0] == req_series_in`
(update.py line 225). -/
def noChangeCond (olds : List String) (req : String) : Bool :=
  olds.dedup.length == 1 && olds.headD "" == req

/-- The in-memory state of the processing loop (working master rows, the
three counters, the audit list). -/
structure EngineState where
  rows : List MasterRow
  updates : Nat
  deletions : Nat
  skipped : Nat
  audits : List AuditEntry
deriving Repr, DecidableEq

/-- The body of the `for _, r in df_in.iterrows()` loop (update.py
lines 182-245), as one state transition per input row. -/
def processRow (index : Key → List Nat) (st : EngineState) (r : NInput) :
    EngineState :=
  if row_has_all_keys r = false then
    { st with
        skipped := st.skipped + 1
        audits := st.audits ++ [⟨.skip_row, keyString r.key, "", "",
          "Row skipped: one or more key fields are blank."⟩] }
  else
    let k := r.key
    let delete_flag := to_bool_delete (some r.isDelete)
    let req := r.requestedSeries
    if index k = [] then
      { st with
          skipped := st.skipped + 1
          audits := st.audits ++ [⟨.no_match, keyString k, "", req,
            "No matching row in master; no action taken."⟩] }
    else
      let idxs := index k
      if delete_flag then
        let rows' := updAt idxs (fun m => { m with toDelete := some true }) 0 st.rows
        let n := idxs.length
        { st with
            rows := rows'
            deletions := st.deletions + n
            audits := st.audits ++ [⟨.delete, keyString k,
              String.intercalate ";" (oldValues rows' idxs), "",
              s!"Deleted {n} row(s) by key."⟩] }
      else
        let olds := oldValues st.rows idxs
        if noChangeCond olds req then
          { st with
              skipped := st.skipped + 1
              audits := st.audits ++ [⟨.no_change, keyString k, olds.headD "", req,
                "RequestedSeries identical (case-sensitive); no update."⟩] }
        else
          let rows' := updAt idxs (fun m => { m with requestedSeries := req }) 0 st.rows
          let n := idxs.length
          { st with
              rows := rows'
              updates := st.updates + n
              audits := st.audits ++ [⟨.update, keyString k,
                String.intercalate ";" olds, req,
                s!"Updated RequestedSeries on {n} row(s)."⟩] }

/-- The deferred-deletion pass (update.py lines 247-249): drop every row
marked `_to_delete == True`, then drop the `_to_delete` column. -/
def applyDeletions (rows : List MasterRow) : List MasterRow :=
  (rows.filter fun m => m.toDelete ≠ some true).map fun m => { m with toDelete := none }

/-- `[c for c in REQUIRED_COLS if c not in df_in.columns]`. -/
def missingCols (inputCols : List String) : List String :=
  REQUIRED_COLS.filter fun c => ¬ inputCols.contains c

/-- The single audit entry of a whole-batch rejection (update.py
lines 130-137). -/
def rejectEntry (missing : List String) : AuditEntry :=
  ⟨.reject_file, "", "", "",
    "Rejected: missing required columns [" ++
      String.intercalate ", " missing ++ "]"⟩

/-- What one run returns: whether the batch was rejected, the master table
that would be saved, the audit entries, and the three counters. -/
structure RunResult where
  rejected : Bool
  master : List RawRow
  audits : List AuditEntry
  updates : Nat
  deletions : Nat
  skipped : Nat
deriving Repr, DecidableEq

/-- One full run of update.py's `main` on an already-read input batch
(column set plus rows) and master table: header validation, normalization
of both tables, index construction, the row loop, the deferred deletion
pass.  On rejection the master is returned untouched. -/
def run (inputCols : List String) (inputRows : List InputRow)
    (masterRaw : List RawRow) : RunResult :=
  let missing := missingCols inputCols
  if missing ≠ [] then
    { rejected := true, master := masterRaw, audits := [rejectEntry missing]
      updates := 0, deletions := 0, skipped := 0 }
  else
    let inp := inputRows.map normalizeInput
    let master0 := masterRaw.map normalizeRow
    let index := masterIndex master0
    let final := inp.foldl (processRow index)
      { rows := master0, updates := 0, deletions := 0, skipped := 0, audits := [] }
    { rejected := false
      master := (applyDeletions final.rows).map MasterRow.toRaw
      audits := final.audits
      updates := final.updates
      deletions := final.deletions
      skipped := final.skipped }

/-- A small concrete master row for sanity checks. -/
def demoRaw (v m c f rs : String) : RawRow :=
  { variantID := some v, manufacturerName := some m, category := some c,
    family := some f, requestedSeries := some rs, toDelete := none, extra := [] }

/-- A small concrete input row for sanity checks. -/
def demoIn (v m c f rs d : String) : InputRow :=
  { variantID := some v, manufacturerName := some m, category := some c,
    family := some f, requestedSeries := some rs, isDelete := some d }

/-! ## Basic lemmas about stripping and normalization -/

theorem trimChars_front (l : List Char) :
    trimChars l <+: l.dropWhile Char.isWhitespace := by
  have h := List.dropWhile_suffix (l := (l.dropWhile Char.isWhitespace).reverse)
    Char.isWhitespace
  have h2 := h.reverse
  rwa [List.reverse_reverse] at h2

theorem dropWhile_eq_self_of_head {p : Char → Bool} {m : List Char}
    (hm : m.dropWhile p = m) {a : List Char} (hpre : a <+: m) :
    a.dropWhile p = a := by
  cases a with
  | nil => rfl
  | cons x xs =>
    obtain ⟨rest, hrest⟩ := hpre
    have hx : p x = false := by
      by_contra hcon
      have hx' : p x = true := by
        cases hpx : p x with
        | false => exact absurd hpx hcon
        | true => rfl
      have heq : m.dropWhile p = (xs ++ rest).dropWhile p := by
        rw [← hrest]
        simp only [List.cons_append, List.dropWhile_cons, if_pos hx']
      have hsub : ((xs ++ rest).dropWhile p).length ≤ (xs ++ rest).length :=
        (List.dropWhile_sublist _).length_le
      rw [hm] at heq
      have hlen : m.length ≤ (xs ++ rest).length := heq ▸ hsub
      have hmlen : m.length = xs.length + rest.length + 1 := by
        rw [← hrest]; simp [List.length_append, List.length_cons]
      rw [List.length_append] at hlen
      omega
    rw [List.dropWhile_cons, if_neg (by simp [hx])]

theorem trimChars_idem (l : List Char) : trimChars (trimChars l) = trimChars l := by
  have hm : (l.dropWhile Char.isWhitespace).dropWhile Char.isWhitespace
      = l.dropWhile Char.isWhitespace := List.dropWhile_idempotent _ _
  have hfix : (trimChars l).dropWhile Char.isWhitespace = trimChars l :=
    dropWhile_eq_self_of_head hm (trimChars_front l)
  show ((((trimChars l).dropWhile Char.isWhitespace).reverse).dropWhile
      Char.isWhitespace).reverse = trimChars l
  rw [hfix]
  show ((((((l.dropWhile Char.isWhitespace).reverse).dropWhile
      Char.isWhitespace).reverse).reverse).dropWhile Char.isWhitespace).reverse
    = trimChars l
  rw [List.reverse_reverse, List.dropWhile_idempotent]
  rfl

theorem pyStrip_idem (s : String) : pyStrip (pyStrip s) = pyStrip s := by
  show (⟨trimChars (pyStrip s).data⟩ : String) = pyStrip s
  show (⟨trimChars (trimChars s.data)⟩ : String) = ⟨trimChars s.data⟩
  rw [trimChars_idem]

theorem normalize_str_some (s : String) : normalize_str (some s) = pyStrip s := rfl

theorem normalize_str_idem (x : Option String) :
    normalize_str (some (normalize_str x)) = normalize_str x := by
  cases x with
  | none => decide
  | some s => simp [normalize_str, pyStrip_idem]

/-- A master row is normalized: its key fields and `RequestedSeries` are
fixed points of stripping. -/
def MasterRow.Normed (m : MasterRow) : Prop :=
  pyStrip m.variantID = m.variantID ∧
  pyStrip m.manufacturerName = m.manufacturerName ∧
  pyStrip m.category = m.category ∧
  pyStrip m.family = m.family ∧
  pyStrip m.requestedSeries = m.requestedSeries

theorem Normed_normalizeRow (r : RawRow) : (normalizeRow r).Normed := by
  unfold MasterRow.Normed normalizeRow
  cases hv : r.variantID <;> cases hm : r.manufacturerName <;>
    cases hc : r.category <;> cases hf : r.family <;> cases hr : r.requestedSeries <;>
    simp [normalize_str, pyStrip_idem] <;> decide

theorem normalizeRow_toRaw {m : MasterRow} (h : m.Normed) :
    normalizeRow m.toRaw = m := by
  obtain ⟨h1, h2, h3, h4, h5⟩ := h
  unfold normalizeRow MasterRow.toRaw
  cases m
  simp_all [normalize_str]

theorem normKey_toRaw {m : MasterRow} (h : m.Normed) :
    m.toRaw.normKey = m.key := by
  obtain ⟨h1, h2, h3, h4, _⟩ := h
  unfold RawRow.normKey MasterRow.toRaw MasterRow.key
  simp_all [normalize_str]

theorem normalizeRow_key (r : RawRow) : (normalizeRow r).key = r.normKey := rfl

theorem normalizeRow_toDelete (r : RawRow) :
    (normalizeRow r).toDelete = r.toDelete := rfl

/-! ## Lemmas about positional update, the master index, old values and the
deletion pass -/

theorem updAt_length (idxs : List Nat) (f : MasterRow → MasterRow)
    (i : Nat) (rows : List MasterRow) :
    (updAt idxs f i rows).length = rows.length := by
  induction rows generalizing i with
  | nil => rfl
  | cons r rs ih => simp [updAt, ih]

theorem updAt_getElem? (idxs : List Nat) (f : MasterRow → MasterRow)
    (i j : Nat) (rows : List MasterRow) :
    (updAt idxs f i rows)[j]? =
      if i + j ∈ idxs then (rows[j]?).map f else rows[j]? := by
  induction rows generalizing i j with
  | nil => simp [updAt]
  | cons r rs ih =>
    cases j with
    | zero =>
      by_cases h : i ∈ idxs
      · simp [updAt, h]
      · simp [updAt, h]
    | succ j' =>
      simp only [updAt, List.getElem?_cons_succ]
      rw [ih (i + 1) j']
      have harith : i + 1 + j' = i + (j' + 1) := by omega
      rw [harith]

theorem mem_masterIndex {rows : List MasterRow} {k : Key} {j : Nat} :
    j ∈ masterIndex rows k ↔ ∃ m, rows[j]? = some m ∧ m.key = k := by
  unfold masterIndex
  rw [List.mem_filter, List.mem_range]
  constructor
  · rintro ⟨hlt, hp⟩
    cases hj : rows[j]? with
    | none => rw [hj] at hp; simp at hp
    | some m =>
      refine ⟨m, rfl, ?_⟩
      rw [hj] at hp
      simpa using hp
  · rintro ⟨m, hj, hk⟩
    have hlt : j < rows.length := by
      by_contra hge
      rw [List.getElem?_eq_none (by omega)] at hj
      exact Option.noConfusion hj
    refine ⟨hlt, ?_⟩
    rw [hj]
    simpa using hk

theorem masterIndex_lt {rows : List MasterRow} {k : Key} {j : Nat}
    (h : j ∈ masterIndex rows k) : j < rows.length := by
  obtain ⟨m, hj, _⟩ := mem_masterIndex.mp h
  by_contra hge
  rw [List.getElem?_eq_none (by omega)] at hj
  exact Option.noConfusion hj

theorem masterIndex_eq_nil_iff {rows : List MasterRow} {k : Key} :
    masterIndex rows k = [] ↔ ∀ m ∈ rows, m.key ≠ k := by
  rw [List.eq_nil_iff_forall_not_mem]
  constructor
  · intro h m hm hk
    obtain ⟨j, hj⟩ := List.mem_iff_getElem?.mp hm
    exact h j (mem_masterIndex.mpr ⟨m, hj, hk⟩)
  · intro h j hj
    obtain ⟨m, hjm, hk⟩ := mem_masterIndex.mp hj
    exact h m (List.mem_iff_getElem?.mpr ⟨j, hjm⟩) hk

theorem oldValues_congr {rows1 rows2 : List MasterRow} {idxs : List Nat}
    (h : ∀ j ∈ idxs, rows1[j]? = rows2[j]?) :
    oldValues rows1 idxs = oldValues rows2 idxs :=
  List.filterMap_congr fun j hj => by rw [h j hj]

theorem mem_oldValues {rows : List MasterRow} {idxs : List Nat} {v : String} :
    v ∈ oldValues rows idxs ↔
      ∃ j ∈ idxs, ∃ m, rows[j]? = some m ∧ m.requestedSeries = v := by
  unfold oldValues
  rw [List.mem_filterMap]
  constructor
  · rintro ⟨j, hj, hmap⟩
    cases hrow : rows[j]? with
    | none => rw [hrow] at hmap; simp at hmap
    | some m =>
      rw [hrow] at hmap
      simp only [Option.map_some'] at hmap
      exact ⟨j, hj, m, hrow, Option.some.inj hmap⟩
  · rintro ⟨j, hj, m, hrow, hv⟩
    exact ⟨j, hj, by rw [hrow, Option.map_some', hv]⟩

theorem oldValues_ne_nil {rows : List MasterRow} {idxs : List Nat}
    (hne : idxs ≠ []) (hval : ∀ j ∈ idxs, j < rows.length) :
    oldValues rows idxs ≠ [] := by
  cases idxs with
  | nil => exact absurd rfl hne
  | cons j rest =>
    have hj : j < rows.length := hval j (by simp)
    unfold oldValues
    rw [List.filterMap_cons, List.getElem?_eq_getElem hj]
    simp

theorem applyDeletions_cons (m : MasterRow) (rows : List MasterRow) :
    applyDeletions (m :: rows) =
      if m.toDelete = some true then applyDeletions rows
      else { m with toDelete := none } :: applyDeletions rows := by
  unfold applyDeletions
  rw [List.filter_cons]
  by_cases h : m.toDelete = some true
  · simp [h]
  · simp [h]

theorem applyDeletions_toDelete {rows : List MasterRow} :
    ∀ m ∈ applyDeletions rows, m.toDelete = none := by
  intro m hm
  unfold applyDeletions at hm
  rw [List.mem_map] at hm
  obtain ⟨m0, _, rfl⟩ := hm
  rfl

theorem applyDeletions_length_le (rows : List MasterRow) :
    (applyDeletions rows).length ≤ rows.length := by
  unfold applyDeletions
  rw [List.length_map]
  exact List.length_filter_le _ _

theorem clear_toDelete_of_none {m : MasterRow} (h : m.toDelete = none) :
    ({ m with toDelete := none } : MasterRow) = m := by
  cases m
  simp_all

theorem applyDeletions_eq_self {rows : List MasterRow}
    (h : ∀ m ∈ rows, m.toDelete = none) : applyDeletions rows = rows := by
  induction rows with
  | nil => rfl
  | cons m rs ih =>
    have hm : m.toDelete = none := h m (by simp)
    rw [applyDeletions_cons, if_neg (by simp [hm]), clear_toDelete_of_none hm,
      ih fun x hx => h x (by simp [hx])]

theorem mem_applyDeletions {rows : List MasterRow} {m' : MasterRow} :
    m' ∈ applyDeletions rows ↔
      ∃ m ∈ rows, m.toDelete ≠ some true ∧ m' = { m with toDelete := none } := by
  unfold applyDeletions
  constructor
  · intro hm
    rw [List.mem_map] at hm
    obtain ⟨m0, hm0, rfl⟩ := hm
    rw [List.mem_filter] at hm0
    exact ⟨m0, hm0.1, by simpa using hm0.2, rfl⟩
  · rintro ⟨m, hm, hnd, rfl⟩
    rw [List.mem_map]
    exact ⟨m, List.mem_filter.mpr ⟨hm, by simpa using hnd⟩, rfl⟩

/-! ## Decomposition of the row loop into rows / audit / counter effects -/

/-- The effect of one loop iteration on the working master rows alone. -/
def stepRows (index : Key → List Nat) (rows : List MasterRow) (r : NInput) :
    List MasterRow :=
  if row_has_all_keys r = false then rows
  else
    let k := r.key
    if index k = [] then rows
    else
      let idxs := index k
      if to_bool_delete (some r.isDelete) then
        updAt idxs (fun m => { m with toDelete := some true }) 0 rows
      else if noChangeCond (oldValues rows idxs) r.requestedSeries then rows
      else updAt idxs (fun m => { m with requestedSeries := r.requestedSeries }) 0 rows

/-- The audit entry one loop iteration appends. -/
def stepAudit (index : Key → List Nat) (rows : List MasterRow) (r : NInput) :
    AuditEntry :=
  if row_has_all_keys r = false then
    ⟨.skip_row, keyString r.key, "", "",
      "Row skipped: one or more key fields are blank."⟩
  else
    let k := r.key
    let req := r.requestedSeries
    if index k = [] then
      ⟨.no_match, keyString k, "", req, "No matching row in master; no action taken."⟩
    else
      let idxs := index k
      let n := idxs.length
      if to_bool_delete (some r.isDelete) then
        ⟨.delete, keyString k,
          String.intercalate ";" (oldValues
            (updAt idxs (fun m => { m with toDelete := some true }) 0 rows) idxs),
          "", s!"Deleted {n} row(s) by key."⟩
      else
        let olds := oldValues rows idxs
        if noChangeCond olds req then
          ⟨.no_change, keyString k, olds.headD "", req,
            "RequestedSeries identical (case-sensitive); no update."⟩
        else
          ⟨.update, keyString k, String.intercalate ";" olds, req,
            s!"Updated RequestedSeries on {n} row(s)."⟩

/-- How much one loop iteration adds to `updates + deletions + skipped`. -/
def stepCount (index : Key → List Nat) (rows : List MasterRow) (r : NInput) : Nat :=
  if row_has_all_keys r = false then 1
  else if index r.key = [] then 1
  else if to_bool_delete (some r.isDelete) then (index r.key).length
  else if noChangeCond (oldValues rows (index r.key)) r.requestedSeries then 1
  else (index r.key).length

theorem processRow_rows (index : Key → List Nat) (st : EngineState) (r : NInput) :
    (processRow index st r).rows = stepRows index st.rows r := by
  simp only [processRow, stepRows]
  split_ifs <;> rfl

theorem processRow_audits (index : Key → List Nat) (st : EngineState) (r : NInput) :
    (processRow index st r).audits = st.audits ++ [stepAudit index st.rows r] := by
  simp only [processRow, stepAudit]
  split_ifs <;> rfl

theorem processRow_counts (index : Key → List Nat) (st : EngineState) (r : NInput) :
    (processRow index st r).updates + (processRow index st r).deletions +
      (processRow index st r).skipped
    = st.updates + st.deletions + st.skipped + stepCount index st.rows r := by
  simp only [processRow, stepCount]
  split_ifs <;> simp <;> omega

/-- The sequence of audit entries the loop appends, starting from a given
working-row state. -/
def auditTrail (index : Key → List Nat) :
    List MasterRow → List NInput → List AuditEntry
  | _, [] => []
  | rows, r :: rs => stepAudit index rows r :: auditTrail index (stepRows index rows r) rs

/-- The total amount the loop adds to `updates + deletions + skipped`. -/
def countTrail (index : Key → List Nat) : List MasterRow → List NInput → Nat
  | _, [] => 0
  | rows, r :: rs => stepCount index rows r + countTrail index (stepRows index rows r) rs

theorem foldl_rows (index : Key → List Nat) (l : List NInput) :
    ∀ st : EngineState,
      (l.foldl (processRow index) st).rows = l.foldl (stepRows index) st.rows := by
  induction l with
  | nil => intro st; rfl
  | cons r rs ih =>
    intro st
    rw [List.foldl_cons, List.foldl_cons, ih, processRow_rows]

theorem foldl_audits (index : Key → List Nat) (l : List NInput) :
    ∀ st : EngineState,
      (l.foldl (processRow index) st).audits
        = st.audits ++ auditTrail index st.rows l := by
  induction l with
  | nil => intro st; simp [auditTrail]
  | cons r rs ih =>
    intro st
    rw [List.foldl_cons, ih, processRow_audits, processRow_rows]
    simp [auditTrail]

theorem foldl_counts (index : Key → List Nat) (l : List NInput) :
    ∀ st : EngineState,
      (l.foldl (processRow index) st).updates +
        (l.foldl (processRow index) st).deletions +
        (l.foldl (processRow index) st).skipped
      = st.updates + st.deletions + st.skipped + countTrail index st.rows l := by
  induction l with
  | nil => intro st; simp [countTrail]
  | cons r rs ih =>
    intro st
    rw [List.foldl_cons, ih, processRow_counts, processRow_rows]
    show _ = _ + (stepCount index st.rows r + countTrail index (stepRows index st.rows r) rs)
    omega

theorem auditTrail_length (index : Key → List Nat) (l : List NInput) :
    ∀ rows : List MasterRow, (auditTrail index rows l).length = l.length := by
  induction l with
  | nil => intro rows; rfl
  | cons r rs ih => intro rows; simp [auditTrail, ih]

theorem auditTrail_getElem? (index : Key → List Nat) (l : List NInput) :
    ∀ (rows : List MasterRow) (i : Nat),
      (auditTrail index rows l)[i]?
        = (l[i]?).map (stepAudit index ((l.take i).foldl (stepRows index) rows)) := by
  induction l with
  | nil => intro rows i; simp [auditTrail]
  | cons r rs ih =>
    intro rows i
    cases i with
    | zero => simp [auditTrail]
    | succ i' =>
      simp only [auditTrail, List.getElem?_cons_succ]
      rw [ih (stepRows index rows r) i']
      simp [List.foldl_cons]

/-! ## Frame lemmas: what one iteration, and the whole loop, leave alone -/

theorem stepRows_length (index : Key → List Nat) (rows : List MasterRow)
    (r : NInput) : (stepRows index rows r).length = rows.length := by
  simp only [stepRows]
  split_ifs <;> simp [updAt_length]

theorem foldlRows_length (index : Key → List Nat) (l : List NInput) :
    ∀ rows : List MasterRow,
      (l.foldl (stepRows index) rows).length = rows.length := by
  induction l with
  | nil => intro rows; rfl
  | cons r rs ih =>
    intro rows
    rw [List.foldl_cons, ih, stepRows_length]

theorem stepRows_stable {index : Key → List Nat} {rows : List MasterRow}
    {r : NInput} {j : Nat}
    (h : row_has_all_keys r = true → j ∉ index r.key) :
    (stepRows index rows r)[j]? = rows[j]? := by
  simp only [stepRows]
  split_ifs with h1 h2 h3 h4
  · rfl
  · rfl
  · have hj : j ∉ index r.key := h (by simpa using h1)
    rw [updAt_getElem?, if_neg (by simpa using hj)]
  · rfl
  · have hj : j ∉ index r.key := h (by simpa using h1)
    rw [updAt_getElem?, if_neg (by simpa using hj)]

theorem foldlRows_stable (index : Key → List Nat) (l : List NInput) :
    ∀ (rows : List MasterRow) (j : Nat),
      (∀ r ∈ l, row_has_all_keys r = true → j ∉ index r.key) →
      (l.foldl (stepRows index) rows)[j]? = rows[j]? := by
  induction l with
  | nil => intro rows j _; rfl
  | cons r rs ih =>
    intro rows j h
    rw [List.foldl_cons, ih _ j fun x hx => h x (by simp [hx]),
      stepRows_stable (h r (by simp))]

theorem stepRows_key (index : Key → List Nat) (rows : List MasterRow)
    (r : NInput) (j : Nat) :
    ((stepRows index rows r)[j]?).map MasterRow.key
      = (rows[j]?).map MasterRow.key := by
  simp only [stepRows]
  split_ifs <;> try rfl
  all_goals
    rw [updAt_getElem?]
    split_ifs
    · cases rows[j]? <;> rfl
    · rfl

theorem foldlRows_key (index : Key → List Nat) (l : List NInput) :
    ∀ (rows : List MasterRow) (j : Nat),
      ((l.foldl (stepRows index) rows)[j]?).map MasterRow.key
        = (rows[j]?).map MasterRow.key := by
  induction l with
  | nil => intro rows j; rfl
  | cons r rs ih =>
    intro rows j
    rw [List.foldl_cons, ih, stepRows_key]

theorem stepRows_marked {index : Key → List Nat} {rows : List MasterRow}
    {r : NInput} {j : Nat}
    (h : ((rows[j]?).map MasterRow.toDelete) = some (some true)) :
    ((stepRows index rows r)[j]?).map MasterRow.toDelete = some (some true) := by
  simp only [stepRows]
  split_ifs
  · exact h
  · exact h
  · rw [updAt_getElem?]
    split_ifs
    · cases hr : rows[j]? with
      | none => rw [hr] at h; simp at h
      | some m => simp
    · exact h
  · exact h
  · rw [updAt_getElem?]
    split_ifs
    · cases hr : rows[j]? with
      | none => rw [hr] at h; simp at h
      | some m =>
        rw [hr] at h
        simpa using h
    · exact h

theorem foldlRows_marked (index : Key → List Nat) (l : List NInput) :
    ∀ (rows : List MasterRow) (j : Nat),
      ((rows[j]?).map MasterRow.toDelete) = some (some true) →
      ((l.foldl (stepRows index) rows)[j]?).map MasterRow.toDelete
        = some (some true) := by
  induction l with
  | nil => intro rows j h; exact h
  | cons r rs ih =>
    intro rows j h
    rw [List.foldl_cons]
    exact ih _ j (stepRows_marked h)

theorem mem_updAt {idxs : List Nat} {f : MasterRow → MasterRow} :
    ∀ {i : Nat} {rows : List MasterRow} {m : MasterRow},
      m ∈ updAt idxs f i rows → ∃ m0 ∈ rows, m = m0 ∨ m = f m0 := by
  intro i rows
  induction rows generalizing i with
  | nil => intro m hm; simp [updAt] at hm
  | cons r rs ih =>
    intro m hm
    rw [updAt] at hm
    rcases List.mem_cons.mp hm with hm | hm
    · by_cases hi : i ∈ idxs
      · rw [if_pos hi] at hm; exact ⟨r, by simp, Or.inr hm⟩
      · rw [if_neg hi] at hm; exact ⟨r, by simp, Or.inl hm⟩
    · obtain ⟨m0, hm0, hor⟩ := ih hm
      exact ⟨m0, by simp [hm0], hor⟩

theorem stepRows_normed {index : Key → List Nat} {rows : List MasterRow}
    {r : NInput} (hrows : ∀ m ∈ rows, m.Normed)
    (hr : pyStrip r.requestedSeries = r.requestedSeries) :
    ∀ m ∈ stepRows index rows r, m.Normed := by
  simp only [stepRows]
  split_ifs <;> intro m hm
  · exact hrows m hm
  · exact hrows m hm
  · obtain ⟨m0, hm0, hor⟩ := mem_updAt hm
    have hn := hrows m0 hm0
    rcases hor with h' | h' <;> rw [h'] <;> exact hn
  · exact hrows m hm
  · obtain ⟨m0, hm0, hor⟩ := mem_updAt hm
    have hn := hrows m0 hm0
    rcases hor with h' | h'
    · rw [h']; exact hn
    · rw [h']
      obtain ⟨n1, n2, n3, n4, _⟩ := hn
      exact ⟨n1, n2, n3, n4, hr⟩

theorem foldlRows_normed (index : Key → List Nat) (l : List NInput)
    (hl : ∀ r ∈ l, pyStrip r.requestedSeries = r.requestedSeries) :
    ∀ rows : List MasterRow, (∀ m ∈ rows, m.Normed) →
      ∀ m ∈ l.foldl (stepRows index) rows, m.Normed := by
  induction l with
  | nil => intro rows h; exact h
  | cons r rs ih =>
    intro rows h
    rw [List.foldl_cons]
    exact ih (fun x hx => hl x (by simp [hx])) _
      (stepRows_normed h (hl r (by simp)))

theorem normalizeInput_req (r : InputRow) :
    pyStrip (normalizeInput r).requestedSeries
      = (normalizeInput r).requestedSeries := by
  show pyStrip (normalize_str r.requestedSeries) = normalize_str r.requestedSeries
  cases r.requestedSeries with
  | none => decide
  | some s => exact pyStrip_idem s

/-! ## Unfolding the two arms of `run` -/

theorem run_reject {cols : List String} (h : missingCols cols ≠ [])
    (inp : List InputRow) (M : List RawRow) :
    run cols inp M
      = ⟨true, M, [rejectEntry (missingCols cols)], 0, 0, 0⟩ := by
  simp only [run]
  rw [if_pos h]

theorem run_master_ok {cols : List String} (h : missingCols cols = [])
    (inp : List InputRow) (M : List RawRow) :
    (run cols inp M).master
      = (applyDeletions ((inp.map normalizeInput).foldl
          (stepRows (masterIndex (M.map normalizeRow)))
          (M.map normalizeRow))).map MasterRow.toRaw := by
  simp only [run]
  rw [if_neg (by simp [h])]
  show (applyDeletions ((inp.map normalizeInput).foldl
      (processRow (masterIndex (M.map normalizeRow)))
      ⟨M.map normalizeRow, 0, 0, 0, []⟩).rows).map MasterRow.toRaw = _
  rw [foldl_rows]

theorem run_audits_ok {cols : List String} (h : missingCols cols = [])
    (inp : List InputRow) (M : List RawRow) :
    (run cols inp M).audits
      = auditTrail (masterIndex (M.map normalizeRow)) (M.map normalizeRow)
          (inp.map normalizeInput) := by
  simp only [run]
  rw [if_neg (by simp [h])]
  show ((inp.map normalizeInput).foldl
      (processRow (masterIndex (M.map normalizeRow)))
      ⟨M.map normalizeRow, 0, 0, 0, []⟩).audits = _
  rw [foldl_audits]
  rfl

theorem run_counts_ok {cols : List String} (h : missingCols cols = [])
    (inp : List InputRow) (M : List RawRow) :
    (run cols inp M).updates + (run cols inp M).deletions
        + (run cols inp M).skipped
      = countTrail (masterIndex (M.map normalizeRow)) (M.map normalizeRow)
          (inp.map normalizeInput) := by
  simp only [run]
  rw [if_neg (by simp [h])]
  show ((inp.map normalizeInput).foldl
        (processRow (masterIndex (M.map normalizeRow)))
        ⟨M.map normalizeRow, 0, 0, 0, []⟩).updates + _ + _ = _
  rw [foldl_counts]
  simp

theorem pyStrip_normalize (x : Option String) :
    pyStrip (normalize_str x) = normalize_str x := normalize_str_idem x

/-! ## The claims -/

/-- C4: for every input batch missing at least one required column, the run
aborts before processing any row: the master record set is left completely
unchanged, exactly one audit entry with action `reject_file` is produced
(and no per-row entries), and the run reports zero updates and zero
deletions. -/
theorem c4_header_rejection (cols : List String) (inp : List InputRow)
    (M : List RawRow) (h : missingCols cols ≠ []) :
    (run cols inp M).master = M ∧
    (run cols inp M).audits = [rejectEntry (missingCols cols)] ∧
    ((run cols inp M).audits).length = 1 ∧
    (∀ e ∈ (run cols inp M).audits, e.action = Action.reject_file) ∧
    (run cols inp M).updates = 0 ∧ (run cols inp M).deletions = 0 := by
  rw [run_reject h]
  refine ⟨rfl, rfl, rfl, ?_, rfl, rfl⟩
  intro e he
  have : e = rejectEntry (missingCols cols) := by simpa using he
  rw [this]
  rfl

/-- Witness for C4 at a concrete batch that lacks the `Family` column. -/
theorem c4_header_rejection_witness :
    missingCols ["VariantID", "ManufacturerName", "Category",
        "RequestedSeries", "is delete"] ≠ [] ∧
    ((run ["VariantID", "ManufacturerName", "Category",
          "RequestedSeries", "is delete"]
        [demoIn "V1" "M1" "C1" "F1" "Y" "0"]
        [demoRaw "V1" "M1" "C1" "F1" "X"]).master
      = [demoRaw "V1" "M1" "C1" "F1" "X"] ∧
     (run ["VariantID", "ManufacturerName", "Category",
          "RequestedSeries", "is delete"]
        [demoIn "V1" "M1" "C1" "F1" "Y" "0"]
        [demoRaw "V1" "M1" "C1" "F1" "X"]).audits
      = [rejectEntry (missingCols ["VariantID", "ManufacturerName", "Category",
          "RequestedSeries", "is delete"])] ∧
     ((run ["VariantID", "ManufacturerName", "Category",
          "RequestedSeries", "is delete"]
        [demoIn "V1" "M1" "C1" "F1" "Y" "0"]
        [demoRaw "V1" "M1" "C1" "F1" "X"]).audits).length = 1 ∧
     (∀ e ∈ (run ["VariantID", "ManufacturerName", "Category",
          "RequestedSeries", "is delete"]
        [demoIn "V1" "M1" "C1" "F1" "Y" "0"]
        [demoRaw "V1" "M1" "C1" "F1" "X"]).audits, e.action = Action.reject_file) ∧
     (run ["VariantID", "ManufacturerName", "Category",
          "RequestedSeries", "is delete"]
        [demoIn "V1" "M1" "C1" "F1" "Y" "0"]
        [demoRaw "V1" "M1" "C1" "F1" "X"]).updates = 0 ∧
     (run ["VariantID", "ManufacturerName", "Category",
          "RequestedSeries", "is delete"]
        [demoIn "V1" "M1" "C1" "F1" "Y" "0"]
        [demoRaw "V1" "M1" "C1" "F1" "X"]).deletions = 0) :=
  ⟨by decide, c4_header_rejection _ _ _ (by decide)⟩

/-- C8: for every input row in which any of the four key fields is empty
after normalization (trim, with missing/null mapped to the empty string),
the action is `skip_row`, the row counts toward `skipped`, and the master
record set is unchanged by that row. -/
theorem c8_blank_key_skips (index : Key → List Nat) (st : EngineState)
    (r : InputRow)
    (h : normalize_str r.variantID = "" ∨ normalize_str r.manufacturerName = ""
       ∨ normalize_str r.category = "" ∨ normalize_str r.family = "") :
    processRow index st (normalizeInput r)
      = { st with
          skipped := st.skipped + 1
          audits := st.audits ++ [⟨Action.skip_row,
            keyString (normalizeInput r).key, "", "",
            "Row skipped: one or more key fields are blank."⟩] } ∧
    (processRow index st (normalizeInput r)).rows = st.rows := by
  have hk : row_has_all_keys (normalizeInput r) = false := by
    simp only [row_has_all_keys, normalizeInput, pyStrip_normalize]
    rcases h with h | h | h | h <;> simp [h]
  have hmain : processRow index st (normalizeInput r)
      = { st with
          skipped := st.skipped + 1
          audits := st.audits ++ [⟨Action.skip_row,
            keyString (normalizeInput r).key, "", "",
            "Row skipped: one or more key fields are blank."⟩] } := by
    simp only [processRow]
    rw [if_pos hk]
  exact ⟨hmain, by rw [hmain]⟩

/-- Witness for C8: an input row with a blank `Family` key field. -/
theorem c8_blank_key_skips_witness :
    (normalize_str (demoIn "V1" "M1" "C1" "  " "Y" "0").variantID = ""
      ∨ normalize_str (demoIn "V1" "M1" "C1" "  " "Y" "0").manufacturerName = ""
      ∨ normalize_str (demoIn "V1" "M1" "C1" "  " "Y" "0").category = ""
      ∨ normalize_str (demoIn "V1" "M1" "C1" "  " "Y" "0").family = "") ∧
    (processRow (masterIndex [normalizeRow (demoRaw "V1" "M1" "C1" "F1" "X")])
        ⟨[normalizeRow (demoRaw "V1" "M1" "C1" "F1" "X")], 0, 0, 0, []⟩
        (normalizeInput (demoIn "V1" "M1" "C1" "  " "Y" "0"))
      = { (⟨[normalizeRow (demoRaw "V1" "M1" "C1" "F1" "X")], 0, 0, 0, []⟩ :
            EngineState) with
          skipped := (⟨[normalizeRow (demoRaw "V1" "M1" "C1" "F1" "X")], 0, 0, 0,
            []⟩ : EngineState).skipped + 1
          audits := (⟨[normalizeRow (demoRaw "V1" "M1" "C1" "F1" "X")], 0, 0, 0,
            []⟩ : EngineState).audits ++ [⟨Action.skip_row,
            keyString (normalizeInput (demoIn "V1" "M1" "C1" "  " "Y" "0")).key,
            "", "", "Row skipped: one or more key fields are blank."⟩] } ∧
     (processRow (masterIndex [normalizeRow (demoRaw "V1" "M1" "C1" "F1" "X")])
        ⟨[normalizeRow (demoRaw "V1" "M1" "C1" "F1" "X")], 0, 0, 0, []⟩
        (normalizeInput (demoIn "V1" "M1" "C1" "  " "Y" "0"))).rows
      = (⟨[normalizeRow (demoRaw "V1" "M1" "C1" "F1" "X")], 0, 0, 0, []⟩ :
          EngineState).rows) :=
  ⟨by decide, c8_blank_key_skips _ _ _ (by decide)⟩

/-- C7: for every input row whose complete composite key is not found in the
master index, the action is `no_match`, the row counts toward `skipped`, and
the master rows are unchanged by that row; moreover the engine never inserts
master records: the saved master of any run is never longer than the master
that was read. -/
theorem c7_no_match_no_insert (index : Key → List Nat) (st : EngineState)
    (r : NInput) (hk : row_has_all_keys r = true) (hnm : index r.key = [])
    (cols : List String) (inp : List InputRow) (M : List RawRow) :
    processRow index st r
      = { st with
          skipped := st.skipped + 1
          audits := st.audits ++ [⟨Action.no_match, keyString r.key, "",
            r.requestedSeries, "No matching row in master; no action taken."⟩] } ∧
    ((run cols inp M).master).length ≤ M.length := by
  constructor
  · simp only [processRow]
    rw [if_neg (by simp [hk]), if_pos hnm]
  · by_cases hcols : missingCols cols = []
    · rw [run_master_ok hcols]
      rw [List.length_map]
      calc (applyDeletions ((inp.map normalizeInput).foldl
              (stepRows (masterIndex (M.map normalizeRow)))
              (M.map normalizeRow))).length
          ≤ ((inp.map normalizeInput).foldl
              (stepRows (masterIndex (M.map normalizeRow)))
              (M.map normalizeRow)).length := applyDeletions_length_le _
        _ = (M.map normalizeRow).length := foldlRows_length _ _ _
        _ = M.length := List.length_map _ _
    · rw [run_reject hcols]

/-- Witness for C7: a complete key that is absent from a one-row master. -/
theorem c7_no_match_no_insert_witness :
    row_has_all_keys (normalizeInput (demoIn "V9" "M9" "C9" "F9" "Y" "0")) = true ∧
    masterIndex [normalizeRow (demoRaw "V1" "M1" "C1" "F1" "X")]
      (normalizeInput (demoIn "V9" "M9" "C9" "F9" "Y" "0")).key = [] ∧
    (processRow (masterIndex [normalizeRow (demoRaw "V1" "M1" "C1" "F1" "X")])
        ⟨[normalizeRow (demoRaw "V1" "M1" "C1" "F1" "X")], 0, 0, 0, []⟩
        (normalizeInput (demoIn "V9" "M9" "C9" "F9" "Y" "0"))
      = { (⟨[normalizeRow (demoRaw "V1" "M1" "C1" "F1" "X")], 0, 0, 0, []⟩ :
            EngineState) with
          skipped := (⟨[normalizeRow (demoRaw "V1" "M1" "C1" "F1" "X")], 0, 0, 0,
            []⟩ : EngineState).skipped + 1
          audits := (⟨[normalizeRow (demoRaw "V1" "M1" "C1" "F1" "X")], 0, 0, 0,
            []⟩ : EngineState).audits ++ [⟨Action.no_match,
            keyString (normalizeInput (demoIn "V9" "M9" "C9" "F9" "Y" "0")).key,
            "", (normalizeInput (demoIn "V9" "M9" "C9" "F9" "Y" "0")).requestedSeries,
            "No matching row in master; no action taken."⟩] } ∧
     ((run REQUIRED_COLS [demoIn "V9" "M9" "C9" "F9" "Y" "0"]
        [demoRaw "V1" "M1" "C1" "F1" "X"]).master).length
       ≤ ([demoRaw "V1" "M1" "C1" "F1" "X"] : List RawRow).length) :=
  ⟨by decide, by decide,
    c7_no_match_no_insert _ _ _ (by decide) (by decide) _ _ _⟩

/-! ## Branch characterizations of one loop iteration, and singleton runs -/

theorem processRow_delete {index : Key → List Nat} {st : EngineState}
    {r : NInput} (hk : row_has_all_keys r = true) (hf : index r.key ≠ [])
    (hd : to_bool_delete (some r.isDelete) = true) :
    processRow index st r
      = { st with
          rows := updAt (index r.key)
            (fun m => { m with toDelete := some true }) 0 st.rows
          deletions := st.deletions + (index r.key).length
          audits := st.audits ++ [⟨Action.delete, keyString r.key,
            String.intercalate ";" (oldValues (updAt (index r.key)
              (fun m => { m with toDelete := some true }) 0 st.rows)
              (index r.key)), "",
            s!"Deleted {(index r.key).length} row(s) by key."⟩] } := by
  simp only [processRow]
  rw [if_neg (by simp [hk]), if_neg hf, if_pos hd]

theorem processRow_noChange {index : Key → List Nat} {st : EngineState}
    {r : NInput} (hk : row_has_all_keys r = true) (hf : index r.key ≠ [])
    (hd : to_bool_delete (some r.isDelete) = false)
    (hnc : noChangeCond (oldValues st.rows (index r.key)) r.requestedSeries
      = true) :
    processRow index st r
      = { st with
          skipped := st.skipped + 1
          audits := st.audits ++ [⟨Action.no_change, keyString r.key,
            (oldValues st.rows (index r.key)).headD "", r.requestedSeries,
            "RequestedSeries identical (case-sensitive); no update."⟩] } := by
  simp only [processRow]
  rw [if_neg (by simp [hk]), if_neg hf, if_neg (by simp [hd]), if_pos hnc]

theorem processRow_update {index : Key → List Nat} {st : EngineState}
    {r : NInput} (hk : row_has_all_keys r = true) (hf : index r.key ≠ [])
    (hd : to_bool_delete (some r.isDelete) = false)
    (hnc : noChangeCond (oldValues st.rows (index r.key)) r.requestedSeries
      = false) :
    processRow index st r
      = { st with
          rows := updAt (index r.key)
            (fun m => { m with requestedSeries := r.requestedSeries }) 0 st.rows
          updates := st.updates + (index r.key).length
          audits := st.audits ++ [⟨Action.update, keyString r.key,
            String.intercalate ";" (oldValues st.rows (index r.key)),
            r.requestedSeries,
            s!"Updated RequestedSeries on {(index r.key).length} row(s)."⟩] } := by
  simp only [processRow]
  rw [if_neg (by simp [hk]), if_neg hf, if_neg (by simp [hd]),
    if_neg (by simp [hnc])]

theorem run_singleton {cols : List String} (h : missingCols cols = [])
    (r : InputRow) (M : List RawRow) :
    run cols [r] M
      = ⟨false,
         (applyDeletions (processRow (masterIndex (M.map normalizeRow))
             ⟨M.map normalizeRow, 0, 0, 0, []⟩ (normalizeInput r)).rows).map
           MasterRow.toRaw,
         (processRow (masterIndex (M.map normalizeRow))
             ⟨M.map normalizeRow, 0, 0, 0, []⟩ (normalizeInput r)).audits,
         (processRow (masterIndex (M.map normalizeRow))
             ⟨M.map normalizeRow, 0, 0, 0, []⟩ (normalizeInput r)).updates,
         (processRow (masterIndex (M.map normalizeRow))
             ⟨M.map normalizeRow, 0, 0, 0, []⟩ (normalizeInput r)).deletions,
         (processRow (masterIndex (M.map normalizeRow))
             ⟨M.map normalizeRow, 0, 0, 0, []⟩ (normalizeInput r)).skipped⟩ := by
  simp only [run]
  rw [if_neg (by simp [h])]
  rfl

theorem dedup_length_one {l : List String} :
    l.dedup.length = 1 ↔ ∃ a, l ≠ [] ∧ ∀ x ∈ l, x = a := by
  induction l with
  | nil => simp
  | cons b t ih =>
    by_cases hb : b ∈ t
    · rw [List.dedup_cons_of_mem hb, ih]
      constructor
      · rintro ⟨a, hne, hall⟩
        refine ⟨a, by simp, ?_⟩
        intro x hx
        rcases List.mem_cons.mp hx with rfl | hx
        · exact hall x hb
        · exact hall x hx
      · rintro ⟨a, _, hall⟩
        refine ⟨a, ?_, fun x hx => hall x (by simp [hx])⟩
        intro ht
        rw [ht] at hb
        simp at hb
    · rw [List.dedup_cons_of_not_mem hb]
      simp only [List.length_cons]
      constructor
      · intro hlen
        have hdt : t.dedup = [] := List.length_eq_zero.mp (by omega)
        have ht : t = [] := (List.dedup_eq_nil t).mp hdt
        subst ht
        exact ⟨b, by simp, by simp⟩
      · rintro ⟨a, _, hall⟩
        have ht : t = [] := by
          cases t with
          | nil => rfl
          | cons c u =>
            exfalso
            have hc : c = a := hall c (by simp)
            have hba : b = a := hall b (by simp)
            rw [← hba] at hc
            exact hb (by simp [← hc])
        subst ht
        simp

theorem noChangeCond_iff {olds : List String} {req : String} :
    noChangeCond olds req = true ↔ olds ≠ [] ∧ ∀ v ∈ olds, v = req := by
  unfold noChangeCond
  rw [Bool.and_eq_true, beq_iff_eq, beq_iff_eq, dedup_length_one]
  constructor
  · rintro ⟨⟨a, hne, hall⟩, hhead⟩
    refine ⟨hne, ?_⟩
    intro v hv
    have hva : v = a := hall v hv
    cases olds with
    | nil => exact absurd rfl hne
    | cons o os =>
      have hoa : o = a := hall o (by simp)
      have : o = req := hhead
      rw [hva, ← hoa, this]
  · rintro ⟨hne, hall⟩
    cases olds with
    | nil => exact absurd rfl hne
    | cons o os =>
      refine ⟨⟨req, by simp, hall⟩, hall o (by simp)⟩

theorem normMaster_toDelete {M : List RawRow} (hM : ∀ m ∈ M, m.toDelete = none) :
    ∀ m ∈ M.map normalizeRow, m.toDelete = none := by
  intro m hm
  rw [List.mem_map] at hm
  obtain ⟨m0, hm0, rfl⟩ := hm
  exact hM m0 hm0

theorem updAt_setRS_toDelete {idxs : List Nat} {req : String}
    {rows : List MasterRow} (h : ∀ m ∈ rows, m.toDelete = none) :
    ∀ m ∈ updAt idxs (fun m => { m with requestedSeries := req }) 0 rows,
      m.toDelete = none := by
  intro m hm
  obtain ⟨m0, hm0, hor⟩ := mem_updAt hm
  rcases hor with h' | h' <;> rw [h'] <;> exact h m0 hm0

set_option maxHeartbeats 1000000 in
/-- C5: for every input row with a complete key that matches master records
and has `is_delete` false: the action is `no_change` (no mutation, counting
toward `skipped`) if and only if all matched positions hold one identical
`RequestedSeries` value equal to the input value under exact case-sensitive
comparison after trimming; otherwise `RequestedSeries` is overwritten with
the input value on all matched positions and the action is `update`. -/
theorem c5_no_change_iff_exact_match (cols : List String) (r : InputRow)
    (M : List RawRow) (hcols : missingCols cols = [])
    (hM : ∀ m ∈ M, m.toDelete = none)
    (hk : row_has_all_keys (normalizeInput r) = true)
    (hf : masterIndex (M.map normalizeRow) (normalizeInput r).key ≠ [])
    (hd : to_bool_delete (some (normalizeInput r).isDelete) = false) :
    ((∀ v ∈ oldValues (M.map normalizeRow)
          (masterIndex (M.map normalizeRow) (normalizeInput r).key),
        v = (normalizeInput r).requestedSeries) →
      (run cols [r] M).master = (M.map normalizeRow).map MasterRow.toRaw ∧
      (run cols [r] M).audits = [⟨Action.no_change,
        keyString (normalizeInput r).key,
        (oldValues (M.map normalizeRow)
          (masterIndex (M.map normalizeRow) (normalizeInput r).key)).headD "",
        (normalizeInput r).requestedSeries,
        "RequestedSeries identical (case-sensitive); no update."⟩] ∧
      (run cols [r] M).skipped = 1 ∧ (run cols [r] M).updates = 0) ∧
    ((¬ ∀ v ∈ oldValues (M.map normalizeRow)
          (masterIndex (M.map normalizeRow) (normalizeInput r).key),
        v = (normalizeInput r).requestedSeries) →
      (run cols [r] M).master
        = (updAt (masterIndex (M.map normalizeRow) (normalizeInput r).key)
            (fun m => { m with
              requestedSeries := (normalizeInput r).requestedSeries })
            0 (M.map normalizeRow)).map MasterRow.toRaw ∧
      (run cols [r] M).updates
        = (masterIndex (M.map normalizeRow) (normalizeInput r).key).length ∧
      (run cols [r] M).skipped = 0 ∧
      (∀ e ∈ (run cols [r] M).audits, e.action = Action.update)) := by
  have hmem0 : ∀ m ∈ M.map normalizeRow, m.toDelete = none :=
    normMaster_toDelete hM
  have holds_ne : oldValues (M.map normalizeRow)
      (masterIndex (M.map normalizeRow) (normalizeInput r).key) ≠ [] :=
    oldValues_ne_nil hf fun j hj => by
      have := masterIndex_lt hj
      simpa using this
  constructor
  · intro hall
    have hnc : noChangeCond (oldValues (M.map normalizeRow)
        (masterIndex (M.map normalizeRow) (normalizeInput r).key))
        (normalizeInput r).requestedSeries = true :=
      noChangeCond_iff.mpr ⟨holds_ne, hall⟩
    rw [run_singleton hcols, processRow_noChange hk hf hd hnc]
    refine ⟨?_, by simp, by simp, by simp⟩
    show (applyDeletions (M.map normalizeRow)).map MasterRow.toRaw = _
    rw [applyDeletions_eq_self hmem0]
  · intro hnall
    have hnc : noChangeCond (oldValues (M.map normalizeRow)
        (masterIndex (M.map normalizeRow) (normalizeInput r).key))
        (normalizeInput r).requestedSeries = false := by
      cases hx : noChangeCond (oldValues (M.map normalizeRow)
          (masterIndex (M.map normalizeRow) (normalizeInput r).key))
          (normalizeInput r).requestedSeries with
      | false => rfl
      | true => exact absurd (noChangeCond_iff.mp hx).2 hnall
    rw [run_singleton hcols, processRow_update hk hf hd hnc]
    refine ⟨?_, by simp, by simp, by simp⟩
    show (applyDeletions (updAt (masterIndex (M.map normalizeRow)
        (normalizeInput r).key)
        (fun m => { m with
          requestedSeries := (normalizeInput r).requestedSeries })
        0 (M.map normalizeRow))).map MasterRow.toRaw = _
    rw [applyDeletions_eq_self (updAt_setRS_toDelete hmem0)]

/-- A one-row master whose `RequestedSeries` differs from the witness input
only in letter case. -/
def wMaster5 : List RawRow := [demoRaw "V1" "M1" "C1" "F1" "abc"]

/-- A witness input row requesting `ABC` against master value `abc`. -/
def wInput5 : InputRow := demoIn "V1" "M1" "C1" "F1" "ABC" "0"

/-- Witness for C5: a value differing only in case triggers `update`. -/
theorem c5_no_change_iff_exact_match_witness :
    missingCols REQUIRED_COLS = [] ∧
    (∀ m ∈ wMaster5, m.toDelete = none) ∧
    row_has_all_keys (normalizeInput wInput5) = true ∧
    masterIndex (wMaster5.map normalizeRow) (normalizeInput wInput5).key ≠ [] ∧
    to_bool_delete (some (normalizeInput wInput5).isDelete) = false ∧
    (((∀ v ∈ oldValues (wMaster5.map normalizeRow)
          (masterIndex (wMaster5.map normalizeRow) (normalizeInput wInput5).key),
        v = (normalizeInput wInput5).requestedSeries) →
      (run REQUIRED_COLS [wInput5] wMaster5).master
        = (wMaster5.map normalizeRow).map MasterRow.toRaw ∧
      (run REQUIRED_COLS [wInput5] wMaster5).audits = [⟨Action.no_change,
        keyString (normalizeInput wInput5).key,
        (oldValues (wMaster5.map normalizeRow)
          (masterIndex (wMaster5.map normalizeRow)
            (normalizeInput wInput5).key)).headD "",
        (normalizeInput wInput5).requestedSeries,
        "RequestedSeries identical (case-sensitive); no update."⟩] ∧
      (run REQUIRED_COLS [wInput5] wMaster5).skipped = 1 ∧
      (run REQUIRED_COLS [wInput5] wMaster5).updates = 0) ∧
    ((¬ ∀ v ∈ oldValues (wMaster5.map normalizeRow)
          (masterIndex (wMaster5.map normalizeRow) (normalizeInput wInput5).key),
        v = (normalizeInput wInput5).requestedSeries) →
      (run REQUIRED_COLS [wInput5] wMaster5).master
        = (updAt (masterIndex (wMaster5.map normalizeRow)
            (normalizeInput wInput5).key)
            (fun m => { m with
              requestedSeries := (normalizeInput wInput5).requestedSeries })
            0 (wMaster5.map normalizeRow)).map MasterRow.toRaw ∧
      (run REQUIRED_COLS [wInput5] wMaster5).updates
        = (masterIndex (wMaster5.map normalizeRow)
            (normalizeInput wInput5).key).length ∧
      (run REQUIRED_COLS [wInput5] wMaster5).skipped = 0 ∧
      (∀ e ∈ (run REQUIRED_COLS [wInput5] wMaster5).audits,
        e.action = Action.update))) :=
  ⟨by decide, by decide, by decide, by decide, by decide,
    c5_no_change_iff_exact_match REQUIRED_COLS wInput5 wMaster5
      (by decide) (by decide) (by decide) (by decide) (by decide)⟩

/-- The rows surviving removal of the listed positions; `i` is the position
of the first row of the traversed suffix. -/
def keepPositions (bad : List Nat) : Nat → List MasterRow → List MasterRow
  | _, [] => []
  | i, r :: rs =>
    if i ∈ bad then keepPositions bad (i + 1) rs
    else r :: keepPositions bad (i + 1) rs

theorem applyDeletions_updAt_mark {bad : List Nat} :
    ∀ (i : Nat) (rows : List MasterRow), (∀ m ∈ rows, m.toDelete = none) →
      applyDeletions
          (updAt bad (fun m => { m with toDelete := some true }) i rows)
        = keepPositions bad i rows := by
  intro i rows
  induction rows generalizing i with
  | nil => intro _; rfl
  | cons r rs ih =>
    intro h
    have hr : r.toDelete = none := h r (by simp)
    have ih' := ih (i + 1) fun m hm => h m (by simp [hm])
    by_cases hi : i ∈ bad
    · simp only [updAt, keepPositions, if_pos hi]
      rw [applyDeletions_cons, if_pos rfl, ih']
    · simp only [updAt, keepPositions, if_neg hi]
      rw [applyDeletions_cons, if_neg (by simp [hr]),
        clear_toDelete_of_none hr, ih']

set_option maxHeartbeats 1000000 in
/-- C6: for every input row whose complete composite key matches `N > 1`
master records: if `is_delete` is true, exactly those `N` records are
removed from the final master set (and `deletions` counts `N`); if
`is_delete` is false and an update occurs, `RequestedSeries` is set to the
input value on all `N` matched records (and `updates` counts `N`). -/
theorem c6_multiplicity (cols : List String) (r : InputRow) (M : List RawRow)
    (N : Nat) (hcols : missingCols cols = [])
    (hM : ∀ m ∈ M, m.toDelete = none)
    (hk : row_has_all_keys (normalizeInput r) = true)
    (hN : (masterIndex (M.map normalizeRow) (normalizeInput r).key).length = N)
    (hN1 : 1 < N) :
    (to_bool_delete (some (normalizeInput r).isDelete) = true →
      (run cols [r] M).master
        = (keepPositions
            (masterIndex (M.map normalizeRow) (normalizeInput r).key)
            0 (M.map normalizeRow)).map MasterRow.toRaw ∧
      (run cols [r] M).deletions = N ∧ (run cols [r] M).updates = 0) ∧
    (to_bool_delete (some (normalizeInput r).isDelete) = false →
      (¬ ∀ v ∈ oldValues (M.map normalizeRow)
            (masterIndex (M.map normalizeRow) (normalizeInput r).key),
          v = (normalizeInput r).requestedSeries) →
      (run cols [r] M).master
        = (updAt (masterIndex (M.map normalizeRow) (normalizeInput r).key)
            (fun m => { m with
              requestedSeries := (normalizeInput r).requestedSeries })
            0 (M.map normalizeRow)).map MasterRow.toRaw ∧
      (run cols [r] M).updates = N) := by
  have hf : masterIndex (M.map normalizeRow) (normalizeInput r).key ≠ [] := by
    intro hnil
    rw [hnil] at hN
    simp at hN
    omega
  have hmem0 : ∀ m ∈ M.map normalizeRow, m.toDelete = none :=
    normMaster_toDelete hM
  constructor
  · intro hd
    rw [run_singleton hcols, processRow_delete hk hf hd]
    refine ⟨?_, by simp [hN], by simp⟩
    show (applyDeletions (updAt
        (masterIndex (M.map normalizeRow) (normalizeInput r).key)
        (fun m => { m with toDelete := some true })
        0 (M.map normalizeRow))).map MasterRow.toRaw = _
    rw [applyDeletions_updAt_mark 0 _ hmem0]
  · intro hd hnall
    have hnc : noChangeCond (oldValues (M.map normalizeRow)
        (masterIndex (M.map normalizeRow) (normalizeInput r).key))
        (normalizeInput r).requestedSeries = false := by
      cases hx : noChangeCond (oldValues (M.map normalizeRow)
          (masterIndex (M.map normalizeRow) (normalizeInput r).key))
          (normalizeInput r).requestedSeries with
      | false => rfl
      | true => exact absurd (noChangeCond_iff.mp hx).2 hnall
    rw [run_singleton hcols, processRow_update hk hf hd hnc]
    refine ⟨?_, by simp [hN]⟩
    show (applyDeletions (updAt
        (masterIndex (M.map normalizeRow) (normalizeInput r).key)
        (fun m => { m with
          requestedSeries := (normalizeInput r).requestedSeries })
        0 (M.map normalizeRow))).map MasterRow.toRaw = _
    rw [applyDeletions_eq_self (updAt_setRS_toDelete hmem0)]

/-- A master with two records sharing one composite key. -/
def wMaster6 : List RawRow :=
  [demoRaw "V1" "M1" "C1" "F1" "X", demoRaw "V1" "M1" "C1" "F1" "Y"]

/-- A delete request for the duplicated key. -/
def wInput6 : InputRow := demoIn "V1" "M1" "C1" "F1" "Z" "yes"

/-- Witness for C6: a delete against a key held by two master records. -/
theorem c6_multiplicity_witness :
    missingCols REQUIRED_COLS = [] ∧
    (∀ m ∈ wMaster6, m.toDelete = none) ∧
    row_has_all_keys (normalizeInput wInput6) = true ∧
    (masterIndex (wMaster6.map normalizeRow)
      (normalizeInput wInput6).key).length = 2 ∧
    1 < 2 ∧
    ((to_bool_delete (some (normalizeInput wInput6).isDelete) = true →
      (run REQUIRED_COLS [wInput6] wMaster6).master
        = (keepPositions
            (masterIndex (wMaster6.map normalizeRow)
              (normalizeInput wInput6).key)
            0 (wMaster6.map normalizeRow)).map MasterRow.toRaw ∧
      (run REQUIRED_COLS [wInput6] wMaster6).deletions = 2 ∧
      (run REQUIRED_COLS [wInput6] wMaster6).updates = 0) ∧
    (to_bool_delete (some (normalizeInput wInput6).isDelete) = false →
      (¬ ∀ v ∈ oldValues (wMaster6.map normalizeRow)
            (masterIndex (wMaster6.map normalizeRow)
              (normalizeInput wInput6).key),
          v = (normalizeInput wInput6).requestedSeries) →
      (run REQUIRED_COLS [wInput6] wMaster6).master
        = (updAt (masterIndex (wMaster6.map normalizeRow)
            (normalizeInput wInput6).key)
            (fun m => { m with
              requestedSeries := (normalizeInput wInput6).requestedSeries })
            0 (wMaster6.map normalizeRow)).map MasterRow.toRaw ∧
      (run REQUIRED_COLS [wInput6] wMaster6).updates = 2)) :=
  ⟨by decide, by decide, by decide, by decide, by decide,
    c6_multiplicity REQUIRED_COLS wInput6 wMaster6 2
      (by decide) (by decide) (by decide) (by decide) (by decide)⟩

theorem masterIndex_length_le (rows : List MasterRow) (k : Key) :
    (masterIndex rows k).length ≤ rows.length := by
  unfold masterIndex
  calc ((List.range rows.length).filter _).length
      ≤ (List.range rows.length).length := List.length_filter_le _ _
    _ = rows.length := List.length_range _

theorem stepCount_one {index : Key → List Nat}
    (hb : ∀ k, (index k).length ≤ 1) (rows : List MasterRow) (r : NInput) :
    stepCount index rows r = 1 := by
  unfold stepCount
  split_ifs with h1 h2 h3 h4
  · rfl
  · rfl
  · have hle : (index r.key).length ≤ 1 := hb r.key
    have hge : 1 ≤ (index r.key).length := by
      cases hx : index r.key with
      | nil => exact absurd hx h2
      | cons a t => simp
    omega
  · rfl
  · have hle : (index r.key).length ≤ 1 := hb r.key
    have hge : 1 ≤ (index r.key).length := by
      cases hx : index r.key with
      | nil => exact absurd hx h2
      | cons a t => simp
    omega

theorem countTrail_length {index : Key → List Nat}
    (hb : ∀ k, (index k).length ≤ 1) (l : List NInput) :
    ∀ rows : List MasterRow, countTrail index rows l = l.length := by
  induction l with
  | nil => intro rows; rfl
  | cons r rs ih =>
    intro rows
    show stepCount index rows r + countTrail index (stepRows index rows r) rs
      = rs.length + 1
    rw [stepCount_one hb, ih]
    omega

theorem stepAudit_not_reject (index : Key → List Nat) (rows : List MasterRow)
    (r : NInput) : (stepAudit index rows r).action ≠ Action.reject_file := by
  simp only [stepAudit]
  split_ifs <;> simp

theorem auditTrail_actions (index : Key → List Nat) (l : List NInput) :
    ∀ rows : List MasterRow,
      ∀ e ∈ auditTrail index rows l, e.action ≠ Action.reject_file := by
  induction l with
  | nil => intro rows e he; simp [auditTrail] at he
  | cons r rs ih =>
    intro rows e he
    rcases List.mem_cons.mp he with rfl | he
    · exact stepAudit_not_reject _ _ _
    · exact ih _ e he

/-- C1 (amended): for every batch that passes header validation, every input
row reaches exactly one terminal row-level classification — the audit log has
exactly one entry per input row and never a `reject_file` entry — and the
counters satisfy `updates + deletions + skipped = number of rows` whenever
every composite key occurs on at most one master record; in general
`updates` and `deletions` count affected master records, which can exceed
one per input row for duplicated keys. -/
theorem c1_terminal_classification (cols : List String) (inp : List InputRow)
    (M : List RawRow) (hcols : missingCols cols = []) :
    ((run cols inp M).audits).length = inp.length ∧
    (∀ e ∈ (run cols inp M).audits, e.action ≠ Action.reject_file) ∧
    ((∀ k, (masterIndex (M.map normalizeRow) k).length ≤ 1) →
      (run cols inp M).updates + (run cols inp M).deletions
        + (run cols inp M).skipped = inp.length) := by
  refine ⟨?_, ?_, ?_⟩
  · rw [run_audits_ok hcols, auditTrail_length, List.length_map]
  · rw [run_audits_ok hcols]
    exact auditTrail_actions _ _ _
  · intro hb
    rw [run_counts_ok hcols, countTrail_length hb, List.length_map]

/-- Witness for C1: a singleton master, where every key bucket has at most
one position, so the counter sum equals the row count. -/
theorem c1_terminal_classification_witness :
    missingCols REQUIRED_COLS = [] ∧
    ((run REQUIRED_COLS [wInput5] wMaster5).audits).length
      = ([wInput5] : List InputRow).length ∧
    (∀ e ∈ (run REQUIRED_COLS [wInput5] wMaster5).audits,
      e.action ≠ Action.reject_file) ∧
    (run REQUIRED_COLS [wInput5] wMaster5).updates
      + (run REQUIRED_COLS [wInput5] wMaster5).deletions
      + (run REQUIRED_COLS [wInput5] wMaster5).skipped
      = ([wInput5] : List InputRow).length :=
  ⟨by decide,
   (c1_terminal_classification REQUIRED_COLS [wInput5] wMaster5 (by decide)).1,
   (c1_terminal_classification REQUIRED_COLS [wInput5] wMaster5 (by decide)).2.1,
   (c1_terminal_classification REQUIRED_COLS [wInput5] wMaster5 (by decide)).2.2
     fun k => le_trans (masterIndex_length_le (wMaster5.map normalizeRow) k)
       (by decide)⟩

/-- An update row whose key matches both records of `wMaster6`. -/
def wInput1 : InputRow := demoIn "V1" "M1" "C1" "F1" "Z" "0"

/-- Counterexample to C1 as stated: a valid batch of one update row whose key
matches two master records yields `updates = 2`, so
`updates + deletions + skipped = 2` differs from the single processed row. -/
theorem c1_counts_counterexample :
    missingCols REQUIRED_COLS = [] ∧
    (run REQUIRED_COLS [wInput1] wMaster6).updates
        + (run REQUIRED_COLS [wInput1] wMaster6).deletions
        + (run REQUIRED_COLS [wInput1] wMaster6).skipped
      ≠ ([wInput1] : List InputRow).length := by
  constructor
  · decide
  · decide

/-- C9: if the master read at the start of a run already contains a
`_to_delete` column, every master row whose `_to_delete` value equals `True`
is removed from the final master set even when no input row requested its
deletion, and the final master never contains a `_to_delete` column (every
saved row's `_to_delete` cell is absent). -/
theorem c9_pre_marked_rows_removed (cols : List String) (inp : List InputRow)
    (M : List RawRow) (hcols : missingCols cols = []) :
    (∀ row ∈ (run cols inp M).master, row.toDelete = none) ∧
    (run cols [] M).master
      = (M.filter fun m => m.toDelete ≠ some true).map
          (fun m => MasterRow.toRaw { normalizeRow m with toDelete := none }) := by
  constructor
  · intro row hrow
    rw [run_master_ok hcols, List.mem_map] at hrow
    obtain ⟨m, hm, rfl⟩ := hrow
    exact applyDeletions_toDelete m hm
  · rw [run_master_ok hcols]
    show (applyDeletions (M.map normalizeRow)).map MasterRow.toRaw = _
    unfold applyDeletions
    rw [List.filter_map, List.map_map, List.map_map,
      List.filter_congr (fun m _ => rfl :
        ∀ m ∈ M, ((fun x => decide (x.toDelete ≠ some true)) ∘ normalizeRow) m
          = decide (m.toDelete ≠ some true))]
    rfl

/-- A master holding one pre-marked `_to_delete = True` row. -/
def wMaster9 : List RawRow :=
  [{ demoRaw "V1" "M1" "C1" "F1" "X" with toDelete := some true },
   demoRaw "V2" "M2" "C2" "F2" "Y"]

/-- Witness for C9: with an empty input batch, the pre-marked row is removed
and no saved row carries a `_to_delete` cell. -/
theorem c9_pre_marked_rows_removed_witness :
    missingCols REQUIRED_COLS = [] ∧
    ((∀ row ∈ (run REQUIRED_COLS [] wMaster9).master, row.toDelete = none) ∧
     (run REQUIRED_COLS [] wMaster9).master
       = (wMaster9.filter fun m => m.toDelete ≠ some true).map
           (fun m => MasterRow.toRaw { normalizeRow m with toDelete := none })) :=
  ⟨by decide, c9_pre_marked_rows_removed REQUIRED_COLS [] wMaster9 (by decide)⟩

/-- A saved raw row is normalized: each key cell and `RequestedSeries` holds
a non-null value that is its own normalization (already trimmed). -/
def RawRow.SavedNormed (row : RawRow) : Prop :=
  row.variantID = some (normalize_str row.variantID) ∧
  row.manufacturerName = some (normalize_str row.manufacturerName) ∧
  row.category = some (normalize_str row.category) ∧
  row.family = some (normalize_str row.family) ∧
  row.requestedSeries = some (normalize_str row.requestedSeries)

theorem SavedNormed_toRaw {m : MasterRow} (h : m.Normed) :
    (MasterRow.toRaw m).SavedNormed := by
  obtain ⟨h1, h2, h3, h4, h5⟩ := h
  refine ⟨?_, ?_, ?_, ?_, ?_⟩ <;>
    simp [MasterRow.toRaw, normalize_str, h1, h2, h3, h4, h5]

theorem run_master_normed (inp : List InputRow) (M : List RawRow) :
    ∀ m ∈ applyDeletions ((inp.map normalizeInput).foldl
        (stepRows (masterIndex (M.map normalizeRow))) (M.map normalizeRow)),
      m.Normed := by
  intro m hm
  rw [mem_applyDeletions] at hm
  obtain ⟨m0, hm0, _, rfl⟩ := hm
  have hF : ∀ x ∈ (inp.map normalizeInput).foldl
      (stepRows (masterIndex (M.map normalizeRow))) (M.map normalizeRow),
      x.Normed := by
    apply foldlRows_normed
    · intro r hr
      rw [List.mem_map] at hr
      obtain ⟨r0, _, rfl⟩ := hr
      exact normalizeInput_req r0
    · intro x hx
      rw [List.mem_map] at hx
      obtain ⟨x0, _, rfl⟩ := hx
      exact Normed_normalizeRow x0
  exact hF m0 hm0

set_option maxHeartbeats 1000000 in
/-- C10: for every run that passes header validation, every row of the saved
master has its key columns and `RequestedSeries` normalized (missing/null
replaced by the empty string, whitespace trimmed) — including rows no input
row matched — while all passthrough columns of untouched rows are unchanged:
an untouched, unmarked master row reappears exactly as its normalization. -/
theorem c10_output_normalized_frame (cols : List String) (inp : List InputRow)
    (M : List RawRow) (hcols : missingCols cols = []) :
    (∀ row ∈ (run cols inp M).master, row.SavedNormed) ∧
    (∀ j, (hj : j < M.length) →
      (∀ r ∈ inp, row_has_all_keys (normalizeInput r) = true →
        (normalizeInput r).key ≠ (normalizeRow M[j]).key) →
      M[j].toDelete ≠ some true →
      MasterRow.toRaw { normalizeRow M[j] with toDelete := none }
        ∈ (run cols inp M).master) := by
  constructor
  · intro row hrow
    rw [run_master_ok hcols, List.mem_map] at hrow
    obtain ⟨m, hm, rfl⟩ := hrow
    exact SavedNormed_toRaw (run_master_normed inp M m hm)
  · intro j hj huntouched hnd
    have hj0 : j < (M.map normalizeRow).length := by
      rw [List.length_map]; exact hj
    have hrow0 : (M.map normalizeRow)[j]? = some (normalizeRow M[j]) := by
      rw [List.getElem?_eq_getElem hj0, List.getElem_map]
    have hstable : ((inp.map normalizeInput).foldl
        (stepRows (masterIndex (M.map normalizeRow))) (M.map normalizeRow))[j]?
        = (M.map normalizeRow)[j]? := by
      apply foldlRows_stable
      intro r hr hcomplete hmem
      rw [List.mem_map] at hr
      obtain ⟨r0, hr0, rfl⟩ := hr
      obtain ⟨m, hmj, hmk⟩ := mem_masterIndex.mp hmem
      rw [hrow0] at hmj
      have hmeq : normalizeRow M[j] = m := Option.some.inj hmj
      rw [← hmeq] at hmk
      exact huntouched r0 hr0 hcomplete hmk.symm
    have hmemF : normalizeRow M[j] ∈ (inp.map normalizeInput).foldl
        (stepRows (masterIndex (M.map normalizeRow))) (M.map normalizeRow) :=
      List.mem_iff_getElem?.mpr ⟨j, by rw [hstable, hrow0]⟩
    have hnd' : (normalizeRow M[j]).toDelete ≠ some true := hnd
    rw [run_master_ok hcols]
    exact List.mem_map_of_mem MasterRow.toRaw
      (mem_applyDeletions.mpr ⟨normalizeRow M[j], hmemF, hnd', rfl⟩)

/-- A no-match input row used as a C10 witness. -/
def wInput10 : InputRow := demoIn "V9" "M9" "C9" "F9" "Y" "0"

/-- Witness for C10: a one-row master untouched by a no-match input row is
saved as exactly its normalization. -/
theorem c10_output_normalized_frame_witness :
    missingCols REQUIRED_COLS = [] ∧
    ((∀ row ∈ (run REQUIRED_COLS [wInput10] wMaster5).master,
        row.SavedNormed) ∧
     (∀ j, (hj : j < wMaster5.length) →
        (∀ r ∈ [wInput10], row_has_all_keys (normalizeInput r) = true →
          (normalizeInput r).key ≠ (normalizeRow wMaster5[j]).key) →
        wMaster5[j].toDelete ≠ some true →
        MasterRow.toRaw { normalizeRow wMaster5[j] with toDelete := none }
          ∈ (run REQUIRED_COLS [wInput10] wMaster5).master)) :=
  ⟨by decide,
    c10_output_normalized_frame REQUIRED_COLS [wInput10] wMaster5 (by decide)⟩

theorem stepRows_skip {index : Key → List Nat} {rows : List MasterRow}
    {r : NInput} (h : row_has_all_keys r = false) :
    stepRows index rows r = rows := by
  simp only [stepRows]
  rw [if_pos h]

theorem stepRows_noMatch {index : Key → List Nat} {rows : List MasterRow}
    {r : NInput} (hk : row_has_all_keys r = true) (he : index r.key = []) :
    stepRows index rows r = rows := by
  simp only [stepRows]
  rw [if_neg (by simp [hk]), if_pos he]

theorem stepRows_delete {index : Key → List Nat} {rows : List MasterRow}
    {r : NInput} (hk : row_has_all_keys r = true) (hf : index r.key ≠ [])
    (hd : to_bool_delete (some r.isDelete) = true) :
    stepRows index rows r
      = updAt (index r.key) (fun m => { m with toDelete := some true }) 0 rows := by
  simp only [stepRows]
  rw [if_neg (by simp [hk]), if_neg hf, if_pos hd]

theorem stepRows_delete_marks {index : Key → List Nat} {rows : List MasterRow}
    {r : NInput} (hk : row_has_all_keys r = true) (hf : index r.key ≠ [])
    (hd : to_bool_delete (some r.isDelete) = true) {j : Nat}
    (hj : j ∈ index r.key) (hlt : j < rows.length) :
    ((stepRows index rows r)[j]?).map MasterRow.toDelete = some (some true) := by
  rw [stepRows_delete hk hf hd, updAt_getElem?,
    if_pos (show 0 + j ∈ index r.key by simpa using hj),
    List.getElem?_eq_getElem hlt]
  rfl

theorem row_has_all_keys_eq_of_key {r s : InputRow}
    (h : (normalizeInput r).key = (normalizeInput s).key) :
    row_has_all_keys (normalizeInput r) = row_has_all_keys (normalizeInput s) := by
  have h1 : (normalizeInput r).variantID = (normalizeInput s).variantID :=
    congrArg (fun k : Key => k.1) h
  have h2 : (normalizeInput r).manufacturerName
      = (normalizeInput s).manufacturerName :=
    congrArg (fun k : Key => k.2.1) h
  have h3 : (normalizeInput r).category = (normalizeInput s).category :=
    congrArg (fun k : Key => k.2.2.1) h
  have h4 : (normalizeInput r).family = (normalizeInput s).family :=
    congrArg (fun k : Key => k.2.2.2) h
  simp only [row_has_all_keys, h1, h2, h3, h4]

/-- Once every position of a key's bucket is marked in the working rows, no
saved row carries that key. -/
theorem no_key_after_marks {master0 F : List MasterRow} {k : Key}
    (hmark : ∀ j ∈ masterIndex master0 k,
      (F[j]?).map MasterRow.toDelete = some (some true))
    (hkey : ∀ j : Nat,
      (F[j]?).map MasterRow.key = (master0[j]?).map MasterRow.key)
    (hnorm : ∀ m ∈ F, m.Normed) :
    ∀ row ∈ (applyDeletions F).map MasterRow.toRaw, row.normKey ≠ k := by
  intro row hrow hkeq
  rw [List.mem_map] at hrow
  obtain ⟨m, hm, rfl⟩ := hrow
  rw [mem_applyDeletions] at hm
  obtain ⟨m0, hm0, hnd, rfl⟩ := hm
  have hn0 : m0.Normed := hnorm m0 hm0
  have hnc : ({ m0 with toDelete := none } : MasterRow).Normed := hn0
  rw [normKey_toRaw hnc] at hkeq
  obtain ⟨j, hj, hFj⟩ := List.mem_iff_getElem.mp hm0
  have hkj : (F[j]?).map MasterRow.key = some k := by
    rw [List.getElem?_eq_getElem hj, hFj, Option.map_some']
    exact congrArg some hkeq
  have hmem : j ∈ masterIndex master0 k := by
    have hkj' := hkj
    rw [hkey j] at hkj'
    cases hm' : master0[j]? with
    | none => rw [hm'] at hkj'; simp at hkj'
    | some mm =>
      rw [hm'] at hkj'
      exact mem_masterIndex.mpr ⟨mm, hm', by simpa using hkj'⟩
  have hmk := hmark j hmem
  rw [List.getElem?_eq_getElem hj, hFj] at hmk
  simp only [Option.map_some'] at hmk
  exact hnd (Option.some.inj hmk)

set_option maxHeartbeats 1000000 in
/-- C2: for every batch containing a delete row and a non-delete row with
the same complete composite key, the saved master has all records of that
key removed regardless of the relative order of the two rows: deletions are
applied as marks and filtered out only after all input rows are processed. -/
theorem c2_deletion_precedence (cols : List String) (r1 r2 : InputRow)
    (M : List RawRow) (hcols : missingCols cols = [])
    (hkey : (normalizeInput r2).key = (normalizeInput r1).key)
    (hk1 : row_has_all_keys (normalizeInput r1) = true)
    (hd1 : to_bool_delete (some (normalizeInput r1).isDelete) = true)
    (hd2 : to_bool_delete (some (normalizeInput r2).isDelete) = false) :
    (∀ row ∈ (run cols [r1, r2] M).master,
      row.normKey ≠ (normalizeInput r1).key) ∧
    (∀ row ∈ (run cols [r2, r1] M).master,
      row.normKey ≠ (normalizeInput r1).key) := by
  have hk2 : row_has_all_keys (normalizeInput r2) = true := by
    rw [row_has_all_keys_eq_of_key hkey]
    exact hk1
  have hnormM : ∀ m ∈ M.map normalizeRow, m.Normed := by
    intro x hx
    rw [List.mem_map] at hx
    obtain ⟨x0, _, rfl⟩ := hx
    exact Normed_normalizeRow x0
  have hreq1 := normalizeInput_req r1
  have hreq2 := normalizeInput_req r2
  by_cases hcase :
      masterIndex (M.map normalizeRow) (normalizeInput r1).key = []
  · constructor
    · rw [run_master_ok hcols]
      show ∀ row ∈ (applyDeletions (stepRows _
          (stepRows _ (M.map normalizeRow) (normalizeInput r1))
          (normalizeInput r2))).map MasterRow.toRaw, _
      rw [stepRows_noMatch hk1 hcase,
        stepRows_noMatch hk2 (by rwa [hkey])]
      exact no_key_after_marks
        (fun j hj => absurd hj (by rw [hcase]; simp))
        (fun j => rfl) hnormM
    · rw [run_master_ok hcols]
      show ∀ row ∈ (applyDeletions (stepRows _
          (stepRows _ (M.map normalizeRow) (normalizeInput r2))
          (normalizeInput r1))).map MasterRow.toRaw, _
      rw [stepRows_noMatch hk2 (by rwa [hkey]), stepRows_noMatch hk1 hcase]
      exact no_key_after_marks
        (fun j hj => absurd hj (by rw [hcase]; simp))
        (fun j => rfl) hnormM
  · constructor
    · rw [run_master_ok hcols]
      show ∀ row ∈ (applyDeletions (stepRows _
          (stepRows _ (M.map normalizeRow) (normalizeInput r1))
          (normalizeInput r2))).map MasterRow.toRaw, _
      apply no_key_after_marks
      · intro j hj
        have hlt : j < (M.map normalizeRow).length := masterIndex_lt hj
        have h1 : ((stepRows (masterIndex (M.map normalizeRow))
            (M.map normalizeRow) (normalizeInput r1))[j]?).map
            MasterRow.toDelete = some (some true) :=
          stepRows_delete_marks hk1 hcase hd1 hj hlt
        exact stepRows_marked h1
      · intro j
        rw [stepRows_key, stepRows_key]
      · apply stepRows_normed _ hreq2
        apply stepRows_normed hnormM hreq1
    · rw [run_master_ok hcols]
      show ∀ row ∈ (applyDeletions (stepRows _
          (stepRows _ (M.map normalizeRow) (normalizeInput r2))
          (normalizeInput r1))).map MasterRow.toRaw, _
      apply no_key_after_marks
      · intro j hj
        have hlt : j < (stepRows (masterIndex (M.map normalizeRow))
            (M.map normalizeRow) (normalizeInput r2)).length := by
          rw [stepRows_length]
          exact masterIndex_lt hj
        exact stepRows_delete_marks hk1 hcase hd1 hj hlt
      · intro j
        rw [stepRows_key, stepRows_key]
      · apply stepRows_normed _ hreq1
        apply stepRows_normed hnormM hreq2

/-- Witness for C2: delete plus update on the duplicated key of `wMaster6`
in both orders. -/
theorem c2_deletion_precedence_witness :
    missingCols REQUIRED_COLS = [] ∧
    (normalizeInput wInput1).key = (normalizeInput wInput6).key ∧
    row_has_all_keys (normalizeInput wInput6) = true ∧
    to_bool_delete (some (normalizeInput wInput6).isDelete) = true ∧
    to_bool_delete (some (normalizeInput wInput1).isDelete) = false ∧
    ((∀ row ∈ (run REQUIRED_COLS [wInput6, wInput1] wMaster6).master,
        row.normKey ≠ (normalizeInput wInput6).key) ∧
     (∀ row ∈ (run REQUIRED_COLS [wInput1, wInput6] wMaster6).master,
        row.normKey ≠ (normalizeInput wInput6).key)) :=
  ⟨by decide, by decide, by decide, by decide, by decide,
    c2_deletion_precedence REQUIRED_COLS wInput6 wInput1 wMaster6
      (by decide) (by decide) (by decide) (by decide) (by decide)⟩

theorem stepRows_update {index : Key → List Nat} {rows : List MasterRow}
    {r : NInput} (hk : row_has_all_keys r = true) (hf : index r.key ≠ [])
    (hd : to_bool_delete (some r.isDelete) = false)
    (hnc : noChangeCond (oldValues rows (index r.key)) r.requestedSeries
      = false) :
    stepRows index rows r
      = updAt (index r.key)
          (fun m => { m with requestedSeries := r.requestedSeries }) 0 rows := by
  simp only [stepRows]
  rw [if_neg (by simp [hk]), if_neg hf, if_neg (by simp [hd]),
    if_neg (by simp [hnc])]

theorem stepAudit_action_update_elim {index : Key → List Nat}
    {rows : List MasterRow} {r : NInput}
    (h : (stepAudit index rows r).action = Action.update) :
    row_has_all_keys r = true ∧ index r.key ≠ [] ∧
    to_bool_delete (some r.isDelete) = false ∧
    noChangeCond (oldValues rows (index r.key)) r.requestedSeries = false := by
  have he : (stepAudit index rows r).action =
      (if row_has_all_keys r = false then Action.skip_row
       else if index r.key = [] then Action.no_match
       else if to_bool_delete (some r.isDelete) then Action.delete
       else if noChangeCond (oldValues rows (index r.key)) r.requestedSeries
         then Action.no_change
       else Action.update) := by
    simp only [stepAudit]
    split_ifs <;> rfl
  rw [h] at he
  split_ifs at he with h1 h2 h3 h4 <;> simp_all

theorem stepAudit_noChange {index : Key → List Nat} {rows : List MasterRow}
    {r : NInput} (hk : row_has_all_keys r = true) (hf : index r.key ≠ [])
    (hd : to_bool_delete (some r.isDelete) = false)
    (hnc : noChangeCond (oldValues rows (index r.key)) r.requestedSeries
      = true) :
    (stepAudit index rows r).action = Action.no_change := by
  simp only [stepAudit]
  rw [if_neg (by simp [hk]), if_neg hf, if_neg (by simp [hd]), if_pos hnc]

theorem masterIndex_inj {rows : List MasterRow} {k k' : Key} {j : Nat}
    (h1 : j ∈ masterIndex rows k) (h2 : j ∈ masterIndex rows k') : k = k' := by
  obtain ⟨m, hm, hk⟩ := mem_masterIndex.mp h1
  obtain ⟨m', hm', hk'⟩ := mem_masterIndex.mp h2
  rw [hm] at hm'
  rw [← hk, ← hk', Option.some.inj hm']

theorem mem_take_getElem {α : Type} {l : List α} {n : Nat} {x : α}
    (h : x ∈ l.take n) :
    ∃ i, ∃ hi : i < l.length, i < n ∧ l[i] = x := by
  obtain ⟨i, hi, hx⟩ := List.mem_iff_getElem.mp h
  have hmin : i < min n l.length := by
    simpa [List.length_take] using hi
  refine ⟨i, by omega, by omega, ?_⟩
  rw [List.getElem_take] at hx
  exact hx

theorem mem_drop_getElem {α : Type} {l : List α} {n : Nat} {x : α}
    (h : x ∈ l.drop n) :
    ∃ i, ∃ hi : i < l.length, n ≤ i ∧ l[i] = x := by
  obtain ⟨j, hj, hx⟩ := List.mem_iff_getElem.mp h
  have hlen : n + j < l.length := by
    have := hj
    simp [List.length_drop] at this
    omega
  refine ⟨n + j, hlen, by omega, ?_⟩
  rw [List.getElem_drop] at hx
  exact hx

theorem foldl_split {α β : Type} (g : β → α → β) (s : β) (l : List α)
    (i : Nat) (hi : i < l.length) :
    l.foldl g s = (l.drop (i + 1)).foldl g (g ((l.take i).foldl g s) l[i]) := by
  conv_lhs => rw [← List.take_append_drop (i + 1) l]
  rw [List.foldl_append]
  congr 1
  rw [List.take_succ, List.getElem?_eq_getElem hi, List.foldl_append]
  rfl

theorem nodup_keys_distinct {l : List NInput} (hN : (l.map NInput.key).Nodup)
    {i i' : Nat} (hi : i < l.length) (hi' : i' < l.length) (hne : i' ≠ i) :
    l[i'].key ≠ l[i].key := by
  intro hkeq
  apply hne
  have hlen1 : i' < (l.map NInput.key).length := by
    rw [List.length_map]; exact hi'
  have hlen2 : i < (l.map NInput.key).length := by
    rw [List.length_map]; exact hi
  have hgeteq : (l.map NInput.key)[i'] = (l.map NInput.key)[i] := by
    rw [List.getElem_map, List.getElem_map]
    exact hkeq
  exact hN.getElem_inj_iff.mp hgeteq

theorem foldl_master_normed (inp : List InputRow) (M : List RawRow) :
    ∀ m ∈ (inp.map normalizeInput).foldl
        (stepRows (masterIndex (M.map normalizeRow))) (M.map normalizeRow),
      m.Normed := by
  apply foldlRows_normed
  · intro r hr
    rw [List.mem_map] at hr
    obtain ⟨r0, _, rfl⟩ := hr
    exact normalizeInput_req r0
  · intro x hx
    rw [List.mem_map] at hx
    obtain ⟨x0, _, rfl⟩ := hx
    exact Normed_normalizeRow x0

set_option maxHeartbeats 2000000 in
/-- C3 (amended): provided no two input rows share a composite key and the
master read at the start carries no pre-existing `_to_delete` marks, running
the reconciliation a second time with the same input against the master
saved by the first run yields action `no_change` on the second run for every
input row that had action `update` on the first run. -/
theorem c3_idempotence (cols : List String) (inp : List InputRow)
    (M : List RawRow) (hcols : missingCols cols = [])
    (hM : ∀ m ∈ M, m.toDelete = none)
    (hkeys : (inp.map fun r => (normalizeInput r).key).Nodup)
    (i : Nat)
    (hup : (((run cols inp M).audits)[i]?).map AuditEntry.action
      = some Action.update) :
    (((run cols inp ((run cols inp M).master)).audits)[i]?).map
        AuditEntry.action
      = some Action.no_change := by
  rw [run_audits_ok hcols, auditTrail_getElem?] at hup
  cases hri : (inp.map normalizeInput)[i]? with
  | none => rw [hri] at hup; simp at hup
  | some r =>
  rw [hri] at hup
  simp only [Option.map_some'] at hup
  have hact : (stepAudit (masterIndex (M.map normalizeRow))
      (((inp.map normalizeInput).take i).foldl
        (stepRows (masterIndex (M.map normalizeRow))) (M.map normalizeRow))
      r).action = Action.update := Option.some.inj hup
  have hil : i < (inp.map normalizeInput).length := by
    by_contra hge
    rw [List.getElem?_eq_none (by omega)] at hri
    exact Option.noConfusion hri
  have hri' : (inp.map normalizeInput)[i] = r := by
    have h0 := List.getElem?_eq_getElem hil
    rw [hri] at h0
    exact Option.some.inj h0.symm
  obtain ⟨hk, hf, hd, hnc1⟩ := stepAudit_action_update_elim hact
  -- pairwise distinct keys, positionally
  have hdist : ∀ i', (hi' : i' < (inp.map normalizeInput).length) → i' ≠ i →
      ((inp.map normalizeInput)[i']).key ≠ r.key := by
    intro i' hi' hne hkeq
    have hnodup : ((inp.map normalizeInput).map NInput.key).Nodup := by
      have hKeq : (inp.map fun r => (normalizeInput r).key)
          = (inp.map normalizeInput).map NInput.key := by
        rw [List.map_map]
        rfl
      rw [← hKeq]
      exact hkeys
    apply nodup_keys_distinct hnodup hil hi' hne
    rw [hkeq]
    exact congrArg NInput.key hri'.symm
  -- run 1: the rows of the matched bucket are untouched before step i
  have hstab1 : ∀ j ∈ masterIndex (M.map normalizeRow) r.key,
      (((inp.map normalizeInput).take i).foldl
        (stepRows (masterIndex (M.map normalizeRow)))
        (M.map normalizeRow))[j]? = (M.map normalizeRow)[j]? := by
    intro j hj
    apply foldlRows_stable
    intro r' hr' _ hjmem
    obtain ⟨i', hi'len, hi'lt, hr'eq⟩ := mem_take_getElem hr'
    have hkk := masterIndex_inj hjmem hj
    exact hdist i' hi'len (by omega) (by rw [hr'eq]; exact hkk)
  -- step i writes the requested series on the whole bucket
  have hmid : ∀ j ∈ masterIndex (M.map normalizeRow) r.key,
      ∃ m0, (M.map normalizeRow)[j]? = some m0 ∧
        (stepRows (masterIndex (M.map normalizeRow))
          (((inp.map normalizeInput).take i).foldl
            (stepRows (masterIndex (M.map normalizeRow)))
            (M.map normalizeRow)) r)[j]?
          = some { m0 with requestedSeries := r.requestedSeries } := by
    intro j hj
    have hlt : j < (M.map normalizeRow).length := masterIndex_lt hj
    refine ⟨(M.map normalizeRow)[j], List.getElem?_eq_getElem hlt, ?_⟩
    rw [stepRows_update hk hf hd hnc1, updAt_getElem?,
      if_pos (show 0 + j ∈ masterIndex (M.map normalizeRow) r.key by
        simpa using hj),
      hstab1 j hj, List.getElem?_eq_getElem hlt]
    rfl
  -- and nothing disturbs the bucket afterwards
  have hsplit := foldl_split (stepRows (masterIndex (M.map normalizeRow)))
    (M.map normalizeRow) (inp.map normalizeInput) i hil
  simp only [hri'] at hsplit
  have hF1 : ∀ j ∈ masterIndex (M.map normalizeRow) r.key,
      ∃ m0, (M.map normalizeRow)[j]? = some m0 ∧
        ((inp.map normalizeInput).foldl
          (stepRows (masterIndex (M.map normalizeRow)))
          (M.map normalizeRow))[j]?
          = some { m0 with requestedSeries := r.requestedSeries } := by
    intro j hj
    obtain ⟨m0, hm0, hmid'⟩ := hmid j hj
    refine ⟨m0, hm0, ?_⟩
    rw [hsplit]
    rw [foldlRows_stable _ _ _ j ?_, hmid']
    intro r' hr' _ hjmem
    obtain ⟨i', hi'len, hi'ge, hr'eq⟩ := mem_drop_getElem hr'
    have hkk := masterIndex_inj hjmem hj
    exact hdist i' hi'len (by omega) (by rw [hr'eq]; exact hkk)
  -- every working row carrying the key after run 1 holds the new value
  have hF1k : ∀ (j : Nat) (m : MasterRow),
      ((inp.map normalizeInput).foldl
        (stepRows (masterIndex (M.map normalizeRow)))
        (M.map normalizeRow))[j]? = some m → m.key = r.key →
      m.requestedSeries = r.requestedSeries ∧ m.toDelete = none := by
    intro j m hFj hkm
    have hjmem : j ∈ masterIndex (M.map normalizeRow) r.key := by
      have h1 : (((inp.map normalizeInput).foldl
          (stepRows (masterIndex (M.map normalizeRow)))
          (M.map normalizeRow))[j]?).map MasterRow.key = some r.key := by
        rw [hFj]
        simp [hkm]
      rw [foldlRows_key] at h1
      cases hm' : (M.map normalizeRow)[j]? with
      | none => rw [hm'] at h1; simp at h1
      | some mm =>
        rw [hm'] at h1
        exact mem_masterIndex.mpr ⟨mm, hm', by simpa using h1⟩
    obtain ⟨m0, hm0, hFj'⟩ := hF1 j hjmem
    rw [hFj] at hFj'
    have hmeq : m = { m0 with requestedSeries := r.requestedSeries } :=
      Option.some.inj hFj'
    constructor
    · rw [hmeq]
    · rw [hmeq]
      show m0.toDelete = none
      exact normMaster_toDelete hM m0 (List.mem_iff_getElem?.mpr ⟨j, hm0⟩)
  -- a surviving representative of the key
  obtain ⟨j0, hj0⟩ : ∃ j0, j0 ∈ masterIndex (M.map normalizeRow) r.key := by
    cases hx : masterIndex (M.map normalizeRow) r.key with
    | nil => exact absurd hx hf
    | cons a t => exact ⟨a, by simp [hx]⟩
  obtain ⟨m0, hm00, hF1j0⟩ := hF1 j0 hj0
  have hm0key : m0.key = r.key := by
    obtain ⟨mm, hmm, hmmk⟩ := mem_masterIndex.mp hj0
    rw [hm00] at hmm
    rw [← Option.some.inj hmm] at hmmk
    exact hmmk
  have hm0td : m0.toDelete = none :=
    normMaster_toDelete hM m0 (List.mem_iff_getElem?.mpr ⟨j0, hm00⟩)
  have hm1F : ({ m0 with requestedSeries := r.requestedSeries } : MasterRow)
      ∈ (inp.map normalizeInput).foldl
        (stepRows (masterIndex (M.map normalizeRow))) (M.map normalizeRow) :=
    List.mem_iff_getElem?.mpr ⟨j0, hF1j0⟩
  have hm1R : ({ m0 with requestedSeries := r.requestedSeries } : MasterRow)
      ∈ applyDeletions ((inp.map normalizeInput).foldl
        (stepRows (masterIndex (M.map normalizeRow))) (M.map normalizeRow)) := by
    have hmm := mem_applyDeletions.mpr
      ⟨{ m0 with requestedSeries := r.requestedSeries }, hm1F,
        by simp [hm0td], rfl⟩
    rwa [clear_toDelete_of_none (by simp [hm0td])] at hmm
  -- every saved row carrying the key holds the new value
  have hRk : ∀ m' ∈ applyDeletions ((inp.map normalizeInput).foldl
        (stepRows (masterIndex (M.map normalizeRow))) (M.map normalizeRow)),
      m'.key = r.key → m'.requestedSeries = r.requestedSeries := by
    intro m' hm' hk'
    rw [mem_applyDeletions] at hm'
    obtain ⟨mF, hmF, _, rfl⟩ := hm'
    obtain ⟨j, hFj⟩ := List.mem_iff_getElem?.mp hmF
    exact (hF1k j mF hFj hk').1
  -- the second run sees exactly the saved rows
  have hrows2m : (((applyDeletions ((inp.map normalizeInput).foldl
        (stepRows (masterIndex (M.map normalizeRow)))
        (M.map normalizeRow))).map MasterRow.toRaw).map normalizeRow)
      = applyDeletions ((inp.map normalizeInput).foldl
        (stepRows (masterIndex (M.map normalizeRow))) (M.map normalizeRow)) := by
    rw [List.map_map]
    calc (applyDeletions ((inp.map normalizeInput).foldl
            (stepRows (masterIndex (M.map normalizeRow)))
            (M.map normalizeRow))).map (normalizeRow ∘ MasterRow.toRaw)
        = (applyDeletions ((inp.map normalizeInput).foldl
            (stepRows (masterIndex (M.map normalizeRow)))
            (M.map normalizeRow))).map id :=
          List.map_congr_left fun m hm =>
            normalizeRow_toRaw (run_master_normed inp M m hm)
      _ = _ := List.map_id _
  rw [run_audits_ok hcols, run_master_ok hcols, hrows2m, auditTrail_getElem?,
    hri]
  simp only [Option.map_some']
  -- the second-run bucket of the key
  have hf2 : masterIndex (applyDeletions ((inp.map normalizeInput).foldl
      (stepRows (masterIndex (M.map normalizeRow)))
      (M.map normalizeRow))) r.key ≠ [] := by
    intro hnil
    exact masterIndex_eq_nil_iff.mp hnil _ hm1R (by
      show ({ m0 with requestedSeries := r.requestedSeries } : MasterRow).key
        = r.key
      show m0.key = r.key
      exact hm0key)
  have hstab2 : ∀ j ∈ masterIndex (applyDeletions
        ((inp.map normalizeInput).foldl
          (stepRows (masterIndex (M.map normalizeRow)))
          (M.map normalizeRow))) r.key,
      (((inp.map normalizeInput).take i).foldl
        (stepRows (masterIndex (applyDeletions
          ((inp.map normalizeInput).foldl
            (stepRows (masterIndex (M.map normalizeRow)))
            (M.map normalizeRow)))))
        (applyDeletions ((inp.map normalizeInput).foldl
          (stepRows (masterIndex (M.map normalizeRow)))
          (M.map normalizeRow))))[j]?
        = (applyDeletions ((inp.map normalizeInput).foldl
          (stepRows (masterIndex (M.map normalizeRow)))
          (M.map normalizeRow)))[j]? := by
    intro j hj
    apply foldlRows_stable
    intro r' hr' _ hjmem
    obtain ⟨i', hi'len, hi'lt, hr'eq⟩ := mem_take_getElem hr'
    have hkk := masterIndex_inj hjmem hj
    exact hdist i' hi'len (by omega) (by rw [hr'eq]; exact hkk)
  have hnc2 : noChangeCond (oldValues (((inp.map normalizeInput).take i).foldl
      (stepRows (masterIndex (applyDeletions
        ((inp.map normalizeInput).foldl
          (stepRows (masterIndex (M.map normalizeRow)))
          (M.map normalizeRow)))))
      (applyDeletions ((inp.map normalizeInput).foldl
        (stepRows (masterIndex (M.map normalizeRow)))
        (M.map normalizeRow))))
      (masterIndex (applyDeletions ((inp.map normalizeInput).foldl
        (stepRows (masterIndex (M.map normalizeRow)))
        (M.map normalizeRow))) r.key)) r.requestedSeries = true := by
    rw [oldValues_congr fun j hj => hstab2 j hj]
    apply noChangeCond_iff.mpr
    constructor
    · exact oldValues_ne_nil hf2 fun j hj => masterIndex_lt hj
    · intro v hv
      rw [mem_oldValues] at hv
      obtain ⟨j, hj, m, hRj, hvm⟩ := hv
      obtain ⟨mm, hmm, hmmk⟩ := mem_masterIndex.mp hj
      rw [hRj] at hmm
      rw [← Option.some.inj hmm] at hmmk
      rw [← hvm]
      exact hRk m (List.mem_iff_getElem?.mpr ⟨j, hRj⟩) hmmk
  rw [stepAudit_noChange hk hf2 hd hnc2]

/-- Witness for C3: one update row with a fresh key becomes `no_change` when
replayed against the saved master. -/
theorem c3_idempotence_witness :
    missingCols REQUIRED_COLS = [] ∧
    (∀ m ∈ wMaster5, m.toDelete = none) ∧
    (([wInput5] : List InputRow).map fun r => (normalizeInput r).key).Nodup ∧
    (((run REQUIRED_COLS [wInput5] wMaster5).audits)[0]?).map
        AuditEntry.action = some Action.update ∧
    (((run REQUIRED_COLS [wInput5]
        ((run REQUIRED_COLS [wInput5] wMaster5).master)).audits)[0]?).map
        AuditEntry.action = some Action.no_change :=
  ⟨by decide, by decide, by decide, by decide,
    c3_idempotence REQUIRED_COLS [wInput5] wMaster5 (by decide) (by decide)
      (by decide) 0 (by decide)⟩

/-- A clean one-row master for the C3 counterexample. -/
def wMaster3 : List RawRow := [demoRaw "V1" "M1" "C1" "F1" "X"]

/-- First update row of the C3 counterexample batch. -/
def wInput3a : InputRow := demoIn "V1" "M1" "C1" "F1" "A" "0"

/-- Second update row of the C3 counterexample batch, same key. -/
def wInput3b : InputRow := demoIn "V1" "M1" "C1" "F1" "B" "0"

/-- Counterexample to C3 as stated: in a valid batch whose two rows share a
key, row 0 gets action `update` on the first run, yet on the second run
against the saved master it gets `update` again (the master now holds row
1's value), not `no_change`. -/
theorem c3_idempotence_counterexample :
    missingCols REQUIRED_COLS = [] ∧
    (∀ m ∈ wMaster3, m.toDelete = none) ∧
    (((run REQUIRED_COLS [wInput3a, wInput3b] wMaster3).audits)[0]?).map
        AuditEntry.action = some Action.update ∧
    (((run REQUIRED_COLS [wInput3a, wInput3b]
        ((run REQUIRED_COLS [wInput3a, wInput3b] wMaster3).master)).audits)[0]?).map
        AuditEntry.action ≠ some Action.no_change :=
  ⟨by decide, by decide, by decide, by decide⟩

example : pyStrip "  ab c  " = "ab c" := by decide

example : to_bool_delete (some " YES ") = true := by decide

example : to_bool_delete (some "0") = false := by decide

example :
    (run REQUIRED_COLS [demoIn "V1" "M1" "C1" "F1" "Y" "0"]
      [demoRaw "V1" "M1" "C1" "F1" "X"]).updates = 1 := by decide

example :
    (run REQUIRED_COLS [demoIn "V1" "M1" "C1" "F1" "Y" "yes"]
      [demoRaw "V1" "M1" "C1" "F1" "X"]).master = [] := by decide

example :
    (run ["VariantID"] [] [demoRaw "V1" "M1" "C1" "F1" "X"]).rejected = true := by
  decide

end SeriesUpdate
